import Mathlib

/-!
Verification of the fabrix core against its specification.

The development shallowly embeds the configuration store
(`src/lib/Configuration.ts`), the lodash `merge` / `defaultsDeep`
helpers it relies on, the lifecycle signal wiring of `Core`
(`src/unnamed/part_002`), a reference-and-freeze heap model for the
configuration proxy handler, and (modelled from the spec, since the
implementation file is not part of the sources) the `after` / `onceAny`
phase-waiter combinator.
-/

namespace Fabrix

/-- JavaScript-style configuration values: scalars, arrays and objects.
An `obj` is a JS object: an insertion-ordered field list with unique keys. -/
inductive CVal where
  | vnull : CVal
  | vbool : Bool → CVal
  | vnum : Int → CVal
  | vstr : String → CVal
  | arr : List CVal → CVal
  | obj : List (String × CVal) → CVal
deriving Repr

/-- `typeof v === 'object' && v !== null`: true exactly for arrays and objects. -/
def isObjLike : CVal → Bool
  | .arr _ => true
  | .obj _ => true
  | _ => false

/-- A scalar (leaf) value: neither an array nor an object. -/
def isScalar (v : CVal) : Bool := !(isObjLike v)

/-- JS truthiness of a configuration value. -/
def jsTruthy : CVal → Bool
  | .vnull => false
  | .vbool b => b
  | .vnum n => n != 0
  | .vstr s => s ≠ ""
  | .arr _ => true
  | .obj _ => true

/-- Property lookup on an object value (`undefined` becomes `none`). -/
def lookupField : CVal → String → Option CVal
  | .obj fs, k => fs.lookup k
  | _, _ => none

/-- JS object assignment `o[k] = v`: overwrite in place if the key exists
(keys are unique in a JS object), append otherwise. Also the JS `Map.set`
semantics used by `Configuration`. -/
def objUpsert : List (String × CVal) → String → CVal → List (String × CVal)
  | [], k, v => [(k, v)]
  | (k1, v1) :: rest, k, v =>
    if k1 == k then (k, v) :: rest else (k1, v1) :: objUpsert rest k v

/-- Decimal digit character. -/
def digitChar (d : Nat) : Char := Char.ofNat (48 + d)

/-- Fuel-driven decimal printer (the fuel makes it structurally recursive,
so that it evaluates inside the kernel). -/
def natStrCore : Nat → Nat → List Char
  | 0, _ => []
  | fuel + 1, n =>
    if n < 10 then [digitChar n]
    else natStrCore fuel (n / 10) ++ [digitChar (n % 10)]

/-- JS array-index key: `String(i)`, the decimal representation of `i`. -/
def natStr (n : Nat) : String := ⟨natStrCore (n + 1) n⟩

/-- Add the entries of an already-flattened sub-object under prefix `k`:
`toReturn[k + "." + flatKey] = flatObject[flatKey]` for each flat entry. -/
def addFlat (k : String) (flat : List (String × CVal))
    (acc : List (String × CVal)) : List (String × CVal) :=
  flat.foldl (fun a kv => objUpsert a (k ++ "." ++ kv.1) kv.2) acc

mutual

/-- `Configuration.flattenTree`: walk `Object.entries(tree)`, copying the
recursively flattened entries of every object-like value under a dotted
prefix, and always recording the entry itself (`toReturn[k] = v`). -/
def flattenTree : CVal → List (String × CVal)
  | .obj fs => flattenFields fs []
  | .arr xs => flattenElems 0 xs []
  | _ => []
termination_by t => (sizeOf t, 0)

/-- Process the entries of an object, in order, into the accumulator. -/
def flattenFields :
    List (String × CVal) → List (String × CVal) → List (String × CVal)
  | [], acc => acc
  | (k, v) :: rest, acc => flattenFields rest (addEntry k v acc)
termination_by fs _ => (sizeOf fs, 0)

/-- Process the entries of an array (index keys `String(i)`), in order. -/
def flattenElems :
    Nat → List CVal → List (String × CVal) → List (String × CVal)
  | _, [], acc => acc
  | i, v :: rest, acc => flattenElems (i + 1) rest (addEntry (natStr i) v acc)
termination_by _ xs _ => (sizeOf xs, 0)

/-- One loop body of `flattenTree`: for an object-like value first copy its
flattened entries under the dotted prefix, then assign `toReturn[k] = v`. -/
def addEntry (k : String) (v : CVal) (acc : List (String × CVal)) :
    List (String × CVal) :=
  objUpsert (if isObjLike v then addFlat k (flattenTree v) acc else acc) k v
termination_by (sizeOf v, 1)

end

/-- Sizes of values found by `List.lookup` are smaller than the list, which
justifies the recursion of the lodash merges below. -/
theorem sizeOf_lookup_lt {b : List (String × CVal)} {k : String} {v : CVal}
    (h : b.lookup k = some v) : sizeOf v < sizeOf b := by
  induction b with
  | nil => simp [List.lookup] at h
  | cons hd tl ih =>
    rw [List.lookup] at h
    by_cases hk : k == hd.1
    · simp [hk] at h
      subst h
      cases hd
      simp
      omega
    · simp [hk] at h
      have := ih h
      cases hd
      simp
      omega

mutual

/-- lodash `defaultsDeep(dst, src)`: keep every defined destination value,
recursively filling missing object fields and array slots from the source.
Matching objects and matching arrays are merged recursively; any other
defined destination wins. -/
def defaultsDeep : CVal → CVal → CVal
  | .obj a, .obj b =>
      .obj (defFields a b ++
        b.filter (fun kv => !(a.any (fun kv2 => kv2.1 == kv.1))))
  | .arr a, .arr b => .arr (defElems a b)
  | d, _ => d
termination_by a b => sizeOf a + sizeOf b
decreasing_by all_goals (simp; omega)

/-- Destination fields of `defaultsDeep`, each recursively defaulted with
the source field of the same name when one exists. -/
def defFields :
    List (String × CVal) → List (String × CVal) → List (String × CVal)
  | [], _ => []
  | (k, av) :: rest, b =>
    (k, match h : b.lookup k with
        | some bv => defaultsDeep av bv
        | none => av) :: defFields rest b
termination_by a b => sizeOf a + sizeOf b
decreasing_by
  all_goals first
    | (have hlt := sizeOf_lookup_lt h; simp; try omega)
    | (simp; try omega)

/-- Array slots of `defaultsDeep`: positions present in both sides are
recursively defaulted, extra source slots are appended. -/
def defElems : List CVal → List CVal → List CVal
  | [], b => b
  | a, [] => a
  | a1 :: as_, b1 :: bs => defaultsDeep a1 b1 :: defElems as_ bs
termination_by a b => sizeOf a + sizeOf b
decreasing_by all_goals (simp; omega)

end

mutual

/-- lodash `merge(dst, src)`: recursively merge matching objects and
matching arrays; otherwise the source value wins. -/
def lmerge : CVal → CVal → CVal
  | .obj a, .obj b =>
      .obj (mergeFields a b ++
        b.filter (fun kv => !(a.any (fun kv2 => kv2.1 == kv.1))))
  | .arr a, .arr b => .arr (mergeElems a b)
  | _, s => s
termination_by a b => sizeOf a + sizeOf b
decreasing_by all_goals (simp; omega)

/-- Destination fields of lodash `merge`, each recursively merged with the
source field of the same name when one exists. -/
def mergeFields :
    List (String × CVal) → List (String × CVal) → List (String × CVal)
  | [], _ => []
  | (k, av) :: rest, b =>
    (k, match h : b.lookup k with
        | some bv => lmerge av bv
        | none => av) :: mergeFields rest b
termination_by a b => sizeOf a + sizeOf b
decreasing_by
  all_goals first
    | (have hlt := sizeOf_lookup_lt h; simp; try omega)
    | (simp; try omega)

/-- Array slots of lodash `merge`: positions present in both sides are
recursively merged (the source element overriding), destination slots past
the source length survive. -/
def mergeElems : List CVal → List CVal → List CVal
  | a, [] => a
  | [], b => b
  | a1 :: as_, b1 :: bs => lmerge a1 b1 :: mergeElems as_ bs
termination_by a b => sizeOf a + sizeOf b
decreasing_by all_goals (simp; omega)

end

/-- Errors thrown by the configuration layer (`src/lib/errors`). -/
inductive FabrixError where
  | illegalAccess : String → FabrixError
  | configValue : String → FabrixError
deriving Repr, DecidableEq

/-- The `Configuration` store: a JS `Map` from dotted-path keys to values,
plus the `immutable` flag. -/
structure Configuration where
  store : List (String × CVal)
  immutable : Bool
deriving Repr

namespace Configuration

/-- `Map.prototype.has`. -/
def hasKey (c : Configuration) (k : String) : Bool :=
  c.store.any (fun kv => kv.1 == k)

/-- `Map.prototype.get` (`undefined` becomes `none`). -/
def get (c : Configuration) (k : String) : Option CVal :=
  c.store.lookup k

/-- `Map.prototype.get` with JS `undefined` collapsed to `null`; used where
the source immediately feeds the result to lodash knowing the key exists. -/
def get1 (c : Configuration) (k : String) : CVal :=
  (c.store.lookup k).getD .vnull

/-- `Configuration.set`: throws `IllegalAccessError` when the store is
immutable, otherwise `super.set(key, value)`. -/
def set (c : Configuration) (k : String) (v : CVal) :
    Except FabrixError Configuration :=
  if c.immutable = true then
    .error (.illegalAccess
      "Cannot set properties directly on config. Use .set(key, value) (immutable)")
  else
    .ok { c with store := objUpsert c.store k v }

/-- One loop body of `Configuration.merge`: process one flattened entry
under the policy, extending the collected `{hasKey, key}` records. -/
def mergeStep (configAction : String)
    (st : Configuration × List (Bool × String)) (kv : String × CVal) :
    Except FabrixError (Configuration × List (Bool × String)) := do
  let hasKey := st.1.hasKey kv.1
  if !hasKey || configAction == "hold" then
    let c1 ← st.1.set kv.1 kv.2
    pure (c1, st.2 ++ [(hasKey, kv.1)])
  else if hasKey && configAction == "merge" then
    let c1 ← st.1.set kv.1 (defaultsDeep (st.1.get1 kv.1) kv.2)
    pure (c1, st.2 ++ [(hasKey, kv.1)])
  else
    pure (st.1, st.2 ++ [(hasKey, kv.1)])

/-- `Configuration.merge`: flatten the tree, then fold its entries through
the policy (`hold`, `merge`, `replaceable`), collecting for each processed
key whether it already existed. -/
def merge (c : Configuration) (configTree : CVal)
    (configAction : String := "hold") :
    Except FabrixError (Configuration × List (Bool × String)) :=
  (flattenTree configTree).foldlM (mergeStep configAction) (c, [])

/-- `Configuration.freeze`. -/
def freeze (c : Configuration) : Configuration := { c with immutable := true }

/-- `Configuration.unfreeze`. -/
def unfreeze (c : Configuration) : Configuration :=
  { c with immutable := false }

/-- `Configuration.initialResources`: the declared `main.resources` list if
present (a `ConfigValueError` when it is set but not an array), the default
resource buckets otherwise. -/
def initialResources (tree : CVal) : Except FabrixError CVal :=
  match lookupField tree "main" with
  | some mainv =>
    match lookupField mainv "resources" with
    | some r =>
      match r with
      | .arr xs => .ok (.arr xs)
      | _ => .error (.configValue "if set, main.resources must be an array")
    | none =>
      .ok (.arr [.vstr "controllers", .vstr "policies", .vstr "services",
        .vstr "models", .vstr "resolvers"])
  | none =>
    .ok (.arr [.vstr "controllers", .vstr "policies", .vstr "services",
      .vstr "models", .vstr "resolvers"])

/-- `path.resolve(base, rel)` for an absolute base and relative segment. -/
def pathResolve (base rel : String) : String := base ++ "/" ++ rel

/-- `initialConfig.env && initialConfig.env[nodeEnv] || { }`. -/
def envOverlay (initialConfig : CVal) (nodeEnv : Option String) : CVal :=
  match lookupField initialConfig "env" with
  | some enVal =>
    if jsTruthy enVal then
      match nodeEnv.bind (lookupField enVal) with
      | some v => if jsTruthy v then v else .obj []
      | none => .obj []
    else .obj []
  | none => .obj []

/-- The `{env: nodeEnv}` tail merged last by `buildConfig` (lodash skips
source properties that resolve to `undefined`). -/
def envTag : Option String → CVal
  | some s => .obj [("env", .vstr s)]
  | none => .obj []

/-- `Configuration.buildConfig`: the defaults template (root-derived paths,
resources, listener bound, empty spool list, freeze/createPaths flags)
merged with the user tree, the environment overlay, and the `env` tag, in
that order. The main-module root directory is an explicit parameter. -/
def buildConfig (initialConfig : CVal) (nodeEnv : Option String)
    (root : String) : Except FabrixError CVal := do
  let temp := pathResolve root ".tmp"
  let resources ← initialResources initialConfig
  let configTemplate : CVal := .obj [("main", .obj [
    ("resources", resources),
    ("maxListeners", .vnum 128),
    ("spools", .arr []),
    ("paths", .obj [
      ("root", .vstr root),
      ("temp", .vstr temp),
      ("sockets", .vstr (pathResolve temp "sockets")),
      ("logs", .vstr (pathResolve temp "log"))]),
    ("freezeConfig", .vbool true),
    ("createPaths", .vbool true)])]
  pure (lmerge (lmerge (lmerge configTemplate initialConfig)
    (envOverlay initialConfig nodeEnv)) (envTag nodeEnv))

/-- The `Configuration` constructor: build the decorated configuration,
flatten it, and load the entries into the map; the store starts mutable. -/
def ofTree (configTree : CVal) (nodeEnv : Option String) (root : String) :
    Except FabrixError Configuration := do
  let config ← buildConfig configTree nodeEnv root
  let configEntries := flattenTree config
  pure { store := configEntries.foldl (fun m kv => objUpsert m kv.1 kv.2) [],
         immutable := false }

end Configuration

/-! ### Path vocabulary for stating properties about flattened trees -/

/-- A dot-free string: usable as one segment of a dotted path. -/
def dotFreeB (s : String) : Bool := s.data.all (fun c => !(c == '.'))

/-- Join path segments with dots, as `flattenTree` does. -/
def joinDot : List String → String
  | [] => ""
  | [k] => k
  | k :: rest => k ++ "." ++ joinDot rest

/-- The element of `xs` sitting at JS index key `k` (`xs[i]` with
`String(i) = k`), if any. -/
def arrIndex (xs : List CVal) (k : String) : Option CVal :=
  (xs.enum.find? (fun p => natStr p.1 == k)).map Prod.snd

/-- The sub-value of a tree reached by descending a path of JS keys. -/
def subtreeAt : CVal → List String → Option CVal
  | t, [] => some t
  | .obj fs, k :: rest =>
    match fs.lookup k with
    | some v => subtreeAt v rest
    | none => none
  | .arr xs, k :: rest =>
    match arrIndex xs k with
    | some v => subtreeAt v rest
    | none => none
  | _, _ :: _ => none
termination_by _ p => p.length

/-- Key uniqueness of a field list. -/
def nodupKeysB : List (String × CVal) → Bool
  | [] => true
  | (k, _) :: rest => !(rest.any (fun kv => kv.1 == k)) && nodupKeysB rest

mutual

/-- A valid configuration tree: object keys are dot-free and unique at
every level (dotted keys would alias flattened paths of other entries). -/
def validB : CVal → Bool
  | .obj fs => nodupKeysB fs && validFields fs
  | .arr xs => validElems xs
  | _ => true
termination_by t => sizeOf t

/-- Validity of all fields of an object. -/
def validFields : List (String × CVal) → Bool
  | [] => true
  | (k, v) :: rest => dotFreeB k && validB v && validFields rest
termination_by fs => sizeOf fs

/-- Validity of all elements of an array. -/
def validElems : List CVal → Bool
  | [] => true
  | v :: rest => validB v && validElems rest
termination_by xs => sizeOf xs

end

/-! ### The PhaseWaiter combinator, modelled from the spec.

The implementation of `after` / `onceAny` lives in the application class,
which is not among the sources (only its test suite is); the definitions
below are modelled from the spec. -/

/-- Modelled from the spec: one wait requirement — a single signal name or
an alternative-group of names, any one of which satisfies the element. -/
inductive SignalReq where
  | single : String → SignalReq
  | anyOf : List String → SignalReq

/-- The signal names that can satisfy a requirement. -/
def SignalReq.names : SignalReq → List String
  | .single n => [n]
  | .anyOf ns => ns

/-- Modelled from the spec: a `PendingWait` holds the requirement list and
the collected results array at fixed index positions (an unsatisfied
element is `none`); the remaining-requirement counter is the number of
`none` slots. -/
structure PendingWait (α : Type) where
  reqs : List SignalReq
  slots : List (Option α)

/-- A fresh waiter: no element satisfied yet. -/
def initWait {α : Type} (reqs : List SignalReq) : PendingWait α :=
  ⟨reqs, reqs.map (fun _ => none)⟩

/-- Deliver one emission `(name, payload)` to the waiter: every still-empty
slot whose requirement lists the name is filled with this payload; slots
already filled keep their first-arriving payload. -/
def stepWait {α : Type} (w : PendingWait α) (e : String × α) : PendingWait α :=
  ⟨w.reqs, (w.reqs.zip w.slots).map (fun rs =>
    match rs.2 with
    | some a => some a
    | none => if rs.1.names.contains e.1 then some e.2 else none)⟩

/-- The waiter is resolved when no slot is empty. -/
def resolvedWait {α : Type} (w : PendingWait α) : Bool :=
  w.slots.all Option.isSome

/-- Scan future emissions, resolving (exactly once, and immediately when
already satisfied) as soon as every element is satisfied; `t` counts the
emissions consumed. An exhausted trace with unsatisfied elements never
resolves. -/
def runWait {α : Type} : PendingWait α → List (String × α) → Nat →
    Option (Nat × List α)
  | w, es, t =>
    if resolvedWait w then some (t, w.slots.reduceOption)
    else
      match es with
      | [] => none
      | e :: rest => runWait (stepWait w e) rest (t + 1)

/-- Modelled from the spec: `after(requirements)` called after the
emissions `hist` have already fired, with `future` still to come. Already
fired signals are counted by catching the waiter up on `hist`; the result
is the resolution time (number of future emissions consumed) and the
ordered payload array. -/
def after {α : Type} (reqs : List SignalReq) (hist future : List (String × α)) :
    Option (Nat × List α) :=
  runWait (hist.foldl stepWait (initWait reqs)) future 0

/-- Modelled from the spec: `onceAny(name)` — the degenerate one-name case
of the waiter, resolving with that one payload itself rather than a
positional array. -/
def onceAny {α : Type} (name : String) (hist future : List (String × α)) :
    Option (Nat × α) :=
  (after [SignalReq.single name] hist future).bind
    (fun r => (r.2.get? 0).map (fun a => (r.1, a)))

/-- Modelled from the test suite (`src/unnamed/part_001`, `#onceAny`): the
test emits `('test1', 1)` and asserts `result[0] == 1` of the resolved
value, so the resolution carries the emission's argument array (here a
one-element array holding the payload), not the bare payload. -/
def onceAnyObserved (name : String) (hist future : List (String × CVal)) :
    Option (Nat × CVal) :=
  (after [SignalReq.single name] hist future).bind
    (fun r => (r.2.get? 0).map (fun a => (r.1, CVal.arr [a])))

/-- A requirement is satisfied by a trace when some emission carries one of
its names. -/
def satisfiedBy {α : Type} (r : SignalReq) (tr : List (String × α)) : Bool :=
  tr.any (fun e => r.names.contains e.1)

/-- The payload of the first emission of a trace satisfying a requirement. -/
def firstPayload {α : Type} (r : SignalReq) (tr : List (String × α)) :
    Option α :=
  (tr.find? (fun e => r.names.contains e.1)).map Prod.snd

/-! ### Lifecycle boundary signals of `Core` (`src/unnamed/part_002`) -/

/-- The per-phase extra prerequisite signal names a spool declares
(`lifecycle.configure.listen`, `lifecycle.initialize.listen`). -/
structure Lifecycle where
  configureListen : List String
  initializeListen : List String

/-- Signal-name groups waited on by `Core.bindSpoolPhaseListeners`: each
spool's per-phase completion signal, for all three phases. -/
def bindSpoolPhaseWaited (spoolNames : List String) : List (List String) :=
  [spoolNames.map (fun s => "spool:" ++ s ++ ":configured"),
   spoolNames.map (fun s => "spool:" ++ s ++ ":validated"),
   spoolNames.map (fun s => "spool:" ++ s ++ ":initialized")]

/-- Signal names emitted by `Core.bindSpoolPhaseListeners`. -/
def bindSpoolPhaseEmitted : List String :=
  ["spool:all:configured", "spool:all:validated", "spool:all:initialized",
   "fabrix:ready"]

/-- Signal names consumed by `Core.bindApplicationListeners`. -/
def bindApplicationConsumed : List String :=
  ["spool:all:configured", "spool:all:initialized", "fabrix:ready",
   "fabrix:stop"]

/-- Signal-name groups waited on by `Core.bindSpoolMethodListeners` for one
spool: its declared extras concatenated with the global barrier signal per
phase, and the start signal. -/
def bindSpoolMethodWaited (lc : Lifecycle) : List (List String) :=
  [lc.initializeListen ++ ["spool:all:configured"],
   lc.configureListen ++ ["spool:all:validated"],
   ["fabrix:start"]]

/-- Signal names emitted by `Core.bindSpoolMethodListeners` for one spool. -/
def bindSpoolMethodEmitted (name : String) : List String :=
  ["spool:" ++ name ++ ":initialized",
   "spool:" ++ name ++ ":configured",
   "spool:" ++ name ++ ":validated"]

/-- Every signal name produced or consumed at the lifecycle boundaries by
the three `Core` binding functions, for a given spool set (with no
spool-declared extra prerequisites). -/
def coreBoundarySignals (spoolNames : List String) : List String :=
  (bindSpoolPhaseWaited spoolNames).flatten ++ bindSpoolPhaseEmitted ++
    bindApplicationConsumed ++
    spoolNames.flatMap bindSpoolMethodEmitted ++
    (bindSpoolMethodWaited ⟨[], []⟩).flatten

/-- The boundary signal names asserted by the specification. -/
def claimedBoundarySignals (spoolNames : List String) : List String :=
  ["app:start"] ++
    spoolNames.flatMap (fun s =>
      ["spool:" ++ s ++ ":validated", "spool:" ++ s ++ ":configured",
       "spool:" ++ s ++ ":initialized"]) ++
    ["all:validated", "all:configured", "all:initialized", "app:ready",
     "app:stop"]

/-! ### A reference heap model for the configuration proxy handler -/

/-- A heap value: a primitive or a reference to a heap object. -/
inductive JVal where
  | jprim : Int → JVal
  | jref : Nat → JVal
deriving Repr, DecidableEq

/-- A heap object: a frozen flag (`Object.freeze` is shallow) and fields. -/
structure JObj where
  frozen : Bool
  fields : List (String × JVal)
deriving Repr, DecidableEq

/-- A heap: addresses mapped to objects. -/
def Heap := List (Nat × JObj)

/-- Dereference an address. -/
def heapGet (h : Heap) (a : Nat) : Option JObj := List.lookup a h

/-- `Object.freeze(o)`: mark the single object at `a` frozen (shallow). -/
def heapFreeze (h : Heap) (a : Nat) : Heap :=
  h.map (fun ao => if ao.1 == a then (ao.1, ⟨true, ao.2.fields⟩) else ao)

/-- JS object field assignment for heap objects. -/
def objUpsertJ : List (String × JVal) → String → JVal → List (String × JVal)
  | [], k, v => [(k, v)]
  | (k1, v1) :: rest, k, v =>
    if k1 == k then (k, v) :: rest else (k1, v1) :: objUpsertJ rest k v

/-- A property write `o[k] = v` on the object at `a`: silently ignored when
the object is frozen (non-strict JS), otherwise the field is updated. -/
def heapWrite (h : Heap) (a : Nat) (k : String) (v : JVal) : Heap :=
  h.map (fun ao =>
    if ao.1 == a then
      if ao.2.frozen then ao
      else (ao.1, ⟨ao.2.frozen, objUpsertJ ao.2.fields k v⟩)
    else ao)

/-- The first branch of `ConfigurationProxyHandler.get` on the
configuration itself: a present key yields its value, after freezing the
referenced object (shallowly) when the store is immutable; the value is
then wrapped in a proxy with the same handler. -/
def proxyGetTop (store : List (String × JVal)) (immutable : Bool) (h : Heap)
    (k : String) : Option JVal × Heap :=
  match List.lookup k store with
  | some v =>
    (some v,
      if immutable then
        match v with
        | .jref a => heapFreeze h a
        | _ => h
      else h)
  | none => (none, h)

/-- The handler applied to a proxied plain value: `target.has` is undefined
and `target.immutable` is undefined (not `true`), so the else-branch
returns the raw field — neither frozen nor re-proxied. -/
def proxyGetNested (h : Heap) (v : JVal) (k : String) : Option JVal :=
  match v with
  | .jref a => (heapGet h a).bind (fun o => List.lookup k o.fields)
  | .jprim _ => none

/-- `config.get(key)`: the `get` method is bound to the raw map in the
constructor, so it returns the stored value directly — no freeze, no
proxy. -/
def configGetMethod (store : List (String × JVal)) (k : String) :
    Option JVal :=
  List.lookup k store

/-! ### Association-list lemmas for the JS map operations -/

theorem any_fst_beq_eq_lookup_isSome (m : List (String × CVal)) (k : String) :
    (m.any (fun kv => kv.1 == k)) = (m.lookup k).isSome := by
  induction m with
  | nil => simp [List.lookup]
  | cons hd tl ih =>
    obtain ⟨k1, v1⟩ := hd
    by_cases h : k1 = k
    · subst h
      simp [List.lookup]
    · have h1 : (k1 == k) = false := by simp [h]
      have h2 : (k == k1) = false := by simp [Ne.symm h]
      simp [List.lookup, h1, h2, ih]

theorem lookup_objUpsert_self (m : List (String × CVal)) (k : String)
    (v : CVal) : (objUpsert m k v).lookup k = some v := by
  induction m with
  | nil => simp [objUpsert, List.lookup]
  | cons hd tl ih =>
    obtain ⟨k1, v1⟩ := hd
    by_cases h : k1 = k
    · subst h
      simp [objUpsert, List.lookup]
    · have h1 : (k1 == k) = false := by simp [h]
      have h2 : (k == k1) = false := by simp [Ne.symm h]
      simp [objUpsert, List.lookup, h1, h2, ih]

theorem lookup_objUpsert_ne (m : List (String × CVal)) {k k' : String}
    (v : CVal) (h : k' ≠ k) :
    (objUpsert m k v).lookup k' = m.lookup k' := by
  induction m with
  | nil =>
    have h2 : (k' == k) = false := by simp [h]
    simp [objUpsert, List.lookup, h2]
  | cons hd tl ih =>
    obtain ⟨k1, v1⟩ := hd
    by_cases h1 : k1 = k
    · subst h1
      have h2 : (k' == k1) = false := by simp [h]
      simp [objUpsert, List.lookup, h2]
    · have h2 : (k1 == k) = false := by simp [h1]
      by_cases h3 : k' = k1
      · subst h3
        simp [objUpsert, List.lookup, h2]
      · have h4 : (k' == k1) = false := by simp [h3]
        simp [objUpsert, List.lookup, h2, h4, ih]

/-- Keys present in the upsert result: the new key, or an old key. -/
theorem lookup_objUpsert_isSome (m : List (String × CVal)) (k k' : String)
    (v : CVal) :
    ((objUpsert m k v).lookup k').isSome =
      ((k' == k) || (m.lookup k').isSome) := by
  by_cases h : k' = k
  · subst h
    simp [lookup_objUpsert_self]
  · have h2 : (k' == k) = false := by simp [h]
    simp [lookup_objUpsert_ne m v h, h2]

/-- Upsert produces a member: any entry of the result is the new pair or an
old entry. -/
theorem mem_objUpsert (m : List (String × CVal)) (k : String) (v : CVal) :
    ∀ e ∈ objUpsert m k v, e = (k, v) ∨ e ∈ m := by
  induction m with
  | nil => simp [objUpsert]
  | cons hd tl ih =>
    obtain ⟨k1, v1⟩ := hd
    intro e he
    by_cases h : k1 = k
    · subst h
      simp [objUpsert] at he
      rcases he with h | h
      · exact Or.inl (by simp [h])
      · exact Or.inr (by simp [h])
    · have h1 : (k1 == k) = false := by simp [h]
      simp [objUpsert, h1] at he
      rcases he with h | h
      · exact Or.inr (by simp [h])
      · rcases ih e h with h | h
        · exact Or.inl h
        · exact Or.inr (by simp [h])

/-- Upsert preserves key uniqueness. -/
theorem nodupKeysB_objUpsert (m : List (String × CVal)) (k : String)
    (v : CVal) (h : nodupKeysB m = true) :
    nodupKeysB (objUpsert m k v) = true := by
  induction m with
  | nil => simp [objUpsert, nodupKeysB]
  | cons hd tl ih =>
    obtain ⟨k1, v1⟩ := hd
    simp [nodupKeysB] at h
    by_cases h1 : k1 = k
    · subst h1
      simp [objUpsert, nodupKeysB]
      exact ⟨h.1, h.2⟩
    · have h2 : (k1 == k) = false := by simp [h1]
      have h3 : ((objUpsert tl k v).any fun kv => kv.1 == k1) = false := by
        rw [any_fst_beq_eq_lookup_isSome, lookup_objUpsert_isSome]
        have h4 : (k1 == k) = false := by simp [h1]
        rw [← any_fst_beq_eq_lookup_isSome]
        simp only [h4, Bool.false_or]
        simpa [nodupKeysB] using h.1
      simp [objUpsert, h2, nodupKeysB, h3]
      exact ih h.2

/-- The hasKey test of the store agrees with lookup success. -/
theorem hasKey_eq_isSome (c : Configuration) (k : String) :
    c.hasKey k = (c.get k).isSome :=
  any_fst_beq_eq_lookup_isSome c.store k

theorem nodupKeysB_addFlat (k : String) (flat acc : List (String × CVal))
    (h : nodupKeysB acc = true) : nodupKeysB (addFlat k flat acc) = true := by
  induction flat generalizing acc with
  | nil => simpa [addFlat] using h
  | cons hd tl ih =>
    simp only [addFlat, List.foldl_cons]
    exact ih _ (nodupKeysB_objUpsert _ _ _ h)

theorem nodupKeysB_addEntry (k : String) (v : CVal)
    (acc : List (String × CVal)) (h : nodupKeysB acc = true) :
    nodupKeysB (addEntry k v acc) = true := by
  rw [addEntry]
  by_cases hv : isObjLike v = true
  · simp only [hv, if_true]
    exact nodupKeysB_objUpsert _ _ _ (nodupKeysB_addFlat _ _ _ h)
  · have hv2 : isObjLike v = false := by simpa using hv
    simp only [hv2, Bool.false_eq_true, if_false]
    exact nodupKeysB_objUpsert _ _ _ h

theorem nodupKeysB_flattenFields (fs : List (String × CVal))
    (acc : List (String × CVal)) (h : nodupKeysB acc = true) :
    nodupKeysB (flattenFields fs acc) = true := by
  induction fs generalizing acc with
  | nil => simpa [flattenFields] using h
  | cons hd tl ih =>
    obtain ⟨k, v⟩ := hd
    rw [flattenFields]
    exact ih _ (nodupKeysB_addEntry _ _ _ h)

theorem nodupKeysB_flattenElems (xs : List CVal) (i : Nat)
    (acc : List (String × CVal)) (h : nodupKeysB acc = true) :
    nodupKeysB (flattenElems i xs acc) = true := by
  induction xs generalizing i acc with
  | nil => simpa [flattenElems] using h
  | cons hd tl ih =>
    rw [flattenElems]
    exact ih _ _ (nodupKeysB_addEntry _ _ _ h)

/-- The flattened form of any tree has unique keys: it is built as a JS
object, where a later assignment to an existing key overwrites in place. -/
theorem nodupKeysB_flattenTree (t : CVal) :
    nodupKeysB (flattenTree t) = true := by
  cases t with
  | obj fs => rw [flattenTree]; exact nodupKeysB_flattenFields _ _ rfl
  | arr xs => rw [flattenTree]; exact nodupKeysB_flattenElems _ _ _ rfl
  | vnull => simp [flattenTree, nodupKeysB]
  | vbool b => simp [flattenTree, nodupKeysB]
  | vnum n => simp [flattenTree, nodupKeysB]
  | vstr s => simp [flattenTree, nodupKeysB]

/-! ### Claim C3: freeze / set / unfreeze -/

/-- C3: after `freeze()`, every `set(key, value)` fails with an
`IllegalAccessError` and the store is left untouched; reads are not
affected; after `unfreeze()`, `set` succeeds again; `freeze` and
`unfreeze` change nothing but the immutability flag. -/
theorem freeze_set_unfreeze_spec (c : Configuration) (k k2 : String)
    (v : CVal) :
    c.freeze.set k v = .error (.illegalAccess
      "Cannot set properties directly on config. Use .set(key, value) (immutable)") ∧
    c.freeze.store = c.store ∧
    c.freeze.immutable = true ∧
    c.freeze.get k2 = c.get k2 ∧
    c.freeze.unfreeze.set k v =
      .ok { store := objUpsert c.store k v, immutable := false } ∧
    c.unfreeze.store = c.store ∧
    c.unfreeze.immutable = false ∧
    c.unfreeze.get k2 = c.get k2 :=
  ⟨rfl, rfl, rfl, rfl, rfl, rfl, rfl, rfl⟩

/-! ### Claim C4: the three merge policies -/

/-- An already-defined scalar destination is never overwritten by
`defaultsDeep`. -/
theorem defaultsDeep_scalar (d v : CVal) (h : isScalar d = true) :
    defaultsDeep d v = d := by
  cases d <;> cases v <;> simp_all [defaultsDeep, isScalar, isObjLike]

/-- Evaluation of one `Configuration.merge` loop step on a mutable store:
it never throws, extends the records with `(hasKey, key)`, and updates the
store according to the policy. -/
theorem mergeStep_ok (action : String) (c : Configuration)
    (res0 : List (Bool × String)) (k : String) (v : CVal)
    (himm : c.immutable = false) :
    Configuration.mergeStep action (c, res0) (k, v) =
      .ok ({ store :=
               if !c.hasKey k || action == "hold" then objUpsert c.store k v
               else if action == "merge" then
                 objUpsert c.store k (defaultsDeep (c.get1 k) v)
               else c.store,
             immutable := false }, res0 ++ [(c.hasKey k, k)]) := by
  obtain ⟨st, imm⟩ := c
  simp only at himm
  subst himm
  by_cases h1 : (!Configuration.hasKey ⟨st, false⟩ k || (action == "hold")) = true
  · simp [Configuration.mergeStep, Configuration.set, h1, Bind.bind,
      Except.bind, pure, Except.pure]
  · have h1f : (!Configuration.hasKey ⟨st, false⟩ k || (action == "hold")) =
        false := by simpa using h1
    have hk : Configuration.hasKey ⟨st, false⟩ k = true := by
      rcases Bool.or_eq_false_iff.mp h1f with ⟨ha, _⟩
      simpa using ha
    have hnh : action ≠ "hold" := by
      simpa using (Bool.or_eq_false_iff.mp h1f).2
    by_cases h2 : (action == "merge") = true
    · simp [Configuration.mergeStep, Configuration.set, h1f, hk, h2, hnh,
        Bind.bind, Except.bind, pure, Except.pure]
    · have h2f : (action == "merge") = false := by simpa using h2
      simp [Configuration.mergeStep, Configuration.set, h1f, hk, h2f, hnh,
        Bind.bind, Except.bind, pure, Except.pure]

/-- Folding `mergeStep` over a unique-keyed entry list: the fold succeeds,
records for every key whether it existed beforehand, leaves unlisted keys
untouched, and gives every listed key its policy value. -/
theorem mergeFold_spec (action : String) (entries : List (String × CVal)) :
    ∀ (c : Configuration) (res0 : List (Bool × String)),
    c.immutable = false → nodupKeysB entries = true →
    ∃ c' : Configuration,
      entries.foldlM (Configuration.mergeStep action) (c, res0) =
        .ok (c', res0 ++ entries.map (fun kv => (c.hasKey kv.1, kv.1))) ∧
      c'.immutable = false ∧
      (∀ k, entries.lookup k = none → c'.get k = c.get k) ∧
      (∀ k v, (k, v) ∈ entries →
        c'.get k =
          if !c.hasKey k || action == "hold" then some v
          else if action == "merge" then some (defaultsDeep (c.get1 k) v)
          else c.get k) := by
  induction entries with
  | nil =>
    intro c res0 himm _
    exact ⟨c, by rw [List.foldlM]; simp [pure, Except.pure], himm,
      fun k _ => rfl, by simp⟩
  | cons hd tl ih =>
    intro c res0 himm hnd
    obtain ⟨k, v⟩ := hd
    have hnd1 : (tl.any fun kv => kv.1 == k) = false := by
      simp only [nodupKeysB, Bool.and_eq_true, Bool.not_eq_eq_eq_not,
        Bool.not_true] at hnd
      exact hnd.1
    have hnd2 : nodupKeysB tl = true := by
      simp only [nodupKeysB, Bool.and_eq_true, Bool.not_eq_eq_eq_not,
        Bool.not_true] at hnd
      exact hnd.2
    have htl_k : tl.lookup k = none := by
      have h := any_fst_beq_eq_lookup_isSome tl k
      rw [hnd1] at h
      exact Option.not_isSome_iff_eq_none.mp (by simp [← h])
    have hne_tl : ∀ kv ∈ tl, kv.1 ≠ k := by
      intro kv hkv
      have := List.any_eq_false.mp hnd1 kv hkv
      simpa using this
    have hstep := mergeStep_ok action c res0 k v himm
    set c1 : Configuration :=
      { store :=
          if !c.hasKey k || action == "hold" then objUpsert c.store k v
          else if action == "merge" then
            objUpsert c.store k (defaultsDeep (c.get1 k) v)
          else c.store,
        immutable := false } with hc1
    have hc1get : ∀ k', k' ≠ k → c1.get k' = c.get k' := by
      intro k' hne
      rw [hc1]
      show List.lookup k' _ = c.get k'
      split
      · exact lookup_objUpsert_ne _ _ hne
      · split
        · exact lookup_objUpsert_ne _ _ hne
        · rfl
    have hc1getk : c1.get k =
        if !c.hasKey k || action == "hold" then some v
        else if action == "merge" then some (defaultsDeep (c.get1 k) v)
        else c.get k := by
      rw [hc1]
      show List.lookup k _ = _
      split
      · exact lookup_objUpsert_self _ _ _
      · split
        · exact lookup_objUpsert_self _ _ _
        · rfl
    have hc1has : ∀ k', k' ≠ k → c1.hasKey k' = c.hasKey k' := by
      intro k' hne
      rw [hasKey_eq_isSome, hasKey_eq_isSome, hc1get k' hne]
    have hc1get1 : ∀ k', k' ≠ k → c1.get1 k' = c.get1 k' := by
      intro k' hne
      show (c1.store.lookup k').getD _ = (c.store.lookup k').getD _
      have := hc1get k' hne
      simp only [Configuration.get] at this
      rw [this]
    obtain ⟨c', hfold, himm', huntouched, hmem⟩ :=
      ih c1 (res0 ++ [(c.hasKey k, k)]) rfl hnd2
    refine ⟨c', ?_, himm', ?_, ?_⟩
    · rw [List.foldlM_cons, hstep]
      have hbind : ∀ (x : Configuration × List (Bool × String))
          (f : Configuration × List (Bool × String) →
            Except FabrixError (Configuration × List (Bool × String))),
          (Except.ok x) >>= f = f x := fun _ _ => rfl
      rw [hbind, hfold]
      have hmapeq : tl.map (fun kv => (c1.hasKey kv.1, kv.1)) =
          tl.map (fun kv => (c.hasKey kv.1, kv.1)) :=
        List.map_congr_left (fun kv hkv => by rw [hc1has kv.1 (hne_tl kv hkv)])
      rw [hmapeq, List.map_cons, List.append_assoc, List.singleton_append]
    · intro k0 hk0
      rw [List.lookup] at hk0
      by_cases he : k0 = k
      · subst he
        simp at hk0
      · have he2 : (k0 == k) = false := by simp [he]
        rw [he2] at hk0
        simp only at hk0
        rw [huntouched k0 hk0]
        exact hc1get k0 he
    · intro k0 v0 hmem0
      rcases List.mem_cons.mp hmem0 with he | htl
      · have hk0 : k0 = k := congrArg Prod.fst he
        have hv0 : v0 = v := congrArg Prod.snd he
        subst hk0
        subst hv0
        rw [huntouched k0 htl_k]
        exact hc1getk
      · have hne : k0 ≠ k := hne_tl (k0, v0) htl
        rw [hmem k0 v0 htl, hc1has k0 hne, hc1get k0 hne, hc1get1 k0 hne]

/-- A successful lookup produces a member of the association list. -/
theorem lookup_mem {m : List (String × CVal)} {k : String} {v : CVal}
    (h : m.lookup k = some v) : (k, v) ∈ m := by
  induction m with
  | nil => simp [List.lookup] at h
  | cons hd tl ih =>
    obtain ⟨k1, v1⟩ := hd
    rw [List.lookup] at h
    by_cases hk : k = k1
    · subst hk
      simp at h
      simp [h]
    · have hk2 : (k == k1) = false := by simp [hk]
      rw [hk2] at h
      simp only at h
      exact List.mem_cons_of_mem _ (ih h)

/-- C4: for every tree, `merge(tree, policy)` processes each flattened key
as follows — a key absent from the store, or any key under the `hold`
policy, receives the new value; an existing key under `merge` receives the
new value deep-merged under the existing one (so an existing scalar leaf is
never overwritten); an existing key under `replaceable` is untouched; keys
not produced by the flattening are untouched; and the returned list records
for each processed key whether it already existed. -/
theorem merge_policy_spec (c : Configuration) (tree : CVal) (action : String)
    (himm : c.immutable = false) :
    ∃ c' : Configuration,
      c.merge tree action =
        .ok (c', (flattenTree tree).map (fun kv => (c.hasKey kv.1, kv.1))) ∧
      (∀ k, (flattenTree tree).lookup k = none → c'.get k = c.get k) ∧
      (∀ k v, (k, v) ∈ flattenTree tree →
        c'.get k =
          if !c.hasKey k || action == "hold" then some v
          else if action == "merge" then some (defaultsDeep (c.get1 k) v)
          else c.get k) ∧
      (∀ k v s, (k, v) ∈ flattenTree tree → c.get k = some s →
        isScalar s = true → action = "merge" → c'.get k = some s) ∧
      (∀ k, c.hasKey k = true → action = "replaceable" →
        c'.get k = c.get k) := by
  obtain ⟨c', hfold, himm', huntouched, hmem⟩ :=
    mergeFold_spec action (flattenTree tree) c [] himm
      (nodupKeysB_flattenTree tree)
  refine ⟨c', ?_, huntouched, hmem, ?_, ?_⟩
  · rw [Configuration.merge, hfold, List.nil_append]
  · intro k v s hkv hget hsc hact
    subst hact
    have hhk : c.hasKey k = true := by
      rw [hasKey_eq_isSome, hget]
      rfl
    have hget1 : c.get1 k = s := by
      show (c.store.lookup k).getD _ = s
      show (c.get k).getD _ = s
      rw [hget]
      rfl
    rw [hmem k v hkv, hhk]
    simp [hget1, defaultsDeep_scalar s v hsc]
  · intro k hhk hact
    subst hact
    by_cases hin : (flattenTree tree).lookup k = none
    · exact huntouched k hin
    · have hsome : ((flattenTree tree).lookup k).isSome := by
        cases hlk : (flattenTree tree).lookup k with
        | none => exact absurd hlk hin
        | some w => rfl
      obtain ⟨v, hv⟩ := Option.isSome_iff_exists.mp hsome
      have hmemv : (k, v) ∈ flattenTree tree := lookup_mem hv
      rw [hmem k v hmemv, hhk]
      simp

/-- C4 witness: merging `{a: 2, b: 3}` under the `merge` policy into a
store holding `a = 1` keeps the existing leaf `a = 1`, adds the fresh key
`b = 3`, and reports `a` as pre-existing and `b` as new. -/
theorem merge_policy_spec_witness :
    (Configuration.merge ⟨[("a", CVal.vnum 1)], false⟩
        (CVal.obj [("a", CVal.vnum 2), ("b", CVal.vnum 3)]) "merge").map
      (fun r => (r.1.get "a", r.1.get "b", r.2)) =
      .ok (some (CVal.vnum 1), some (CVal.vnum 3),
        [(true, "a"), (false, "b")]) := by
  obtain ⟨c', h1, h2, h3, h4, h5⟩ :=
    merge_policy_spec ⟨[("a", CVal.vnum 1)], false⟩
      (CVal.obj [("a", CVal.vnum 2), ("b", CVal.vnum 3)]) "merge" rfl
  have hflat : flattenTree (CVal.obj [("a", CVal.vnum 2), ("b", CVal.vnum 3)]) =
      [("a", CVal.vnum 2), ("b", CVal.vnum 3)] := by
    simp [flattenTree, flattenFields, addEntry, addFlat, objUpsert, isObjLike]
  rw [hflat] at h1 h3 h4
  have ha : c'.get "a" = some (CVal.vnum 1) :=
    h4 "a" (CVal.vnum 2) (CVal.vnum 1) (by simp) rfl rfl rfl
  have hb : c'.get "b" = some (CVal.vnum 3) := by
    rw [h3 "b" (CVal.vnum 3) (by simp)]
    rfl
  rw [h1]
  simp only [Except.map]
  rw [ha, hb]
  rfl

/-! ### Decimal index keys: digits only, injective -/

theorem natStrCore_digits (fuel : Nat) :
    ∀ n, ∀ c ∈ natStrCore fuel n, ∃ d, d < 10 ∧ c = digitChar d := by
  induction fuel with
  | zero => intro n c hc; simp [natStrCore] at hc
  | succ f ih =>
    intro n c hc
    rw [natStrCore] at hc
    by_cases h : n < 10
    · rw [if_pos h] at hc
      simp at hc
      exact ⟨n, h, hc⟩
    · rw [if_neg h] at hc
      rcases List.mem_append.mp hc with h1 | h1
      · exact ih _ c h1
      · simp at h1
        exact ⟨n % 10, Nat.mod_lt _ (by norm_num), h1⟩

theorem digitChar_ne_dot (d : Nat) (h : d < 10) : digitChar d ≠ '.' := by
  interval_cases d <;> decide

theorem dotFreeB_natStr (n : Nat) : dotFreeB (natStr n) = true := by
  show (natStrCore (n + 1) n).all _ = true
  rw [List.all_eq_true]
  intro c hc
  obtain ⟨d, hd, rfl⟩ := natStrCore_digits _ _ c hc
  simpa using digitChar_ne_dot d hd

theorem digitChar_toNat (d : Nat) (h : d < 10) : (digitChar d).toNat = 48 + d := by
  interval_cases d <;> decide

theorem parse_natStrCore (fuel : Nat) :
    ∀ n a, n < fuel →
      (natStrCore fuel n).foldl (fun acc c => 10 * acc + (c.toNat - 48)) a =
        a * 10 ^ (natStrCore fuel n).length + n := by
  induction fuel with
  | zero => intro n a h; exact absurd h (Nat.not_lt_zero n)
  | succ f ih =>
    intro n a h
    rw [natStrCore]
    by_cases h10 : n < 10
    · rw [if_pos h10]
      simp [List.foldl, digitChar_toNat n h10]
      omega
    · rw [if_neg h10]
      have hdiv : n / 10 < f := by omega
      rw [List.foldl_append, ih (n / 10) a hdiv]
      have hm : (digitChar (n % 10)).toNat = 48 + n % 10 :=
        digitChar_toNat _ (Nat.mod_lt _ (by norm_num))
      simp only [List.foldl_cons, List.foldl_nil, hm, List.length_append,
        List.length_cons, List.length_nil]
      have hpow : 10 ^ ((natStrCore f (n / 10)).length + (0 + 1)) =
          10 ^ (natStrCore f (n / 10)).length * 10 := by
        rw [pow_succ]
      rw [hpow]
      set X := a * 10 ^ (natStrCore f (n / 10)).length with hX
      have : a * (10 ^ (natStrCore f (n / 10)).length * 10) = X * 10 := by
        rw [hX]; ring
      rw [this]
      omega

theorem natStr_inj {m n : Nat} (h : natStr m = natStr n) : m = n := by
  have hd : natStrCore (m + 1) m = natStrCore (n + 1) n :=
    congrArg String.data h
  have h1 := parse_natStrCore (m + 1) m 0 (by omega)
  have h2 := parse_natStrCore (n + 1) n 0 (by omega)
  rw [hd] at h1
  rw [h1] at h2
  simpa using h2

/-! ### Dotted path joining is injective on dot-free segments -/

theorem dotFreeB_iff (s : String) : dotFreeB s = true ↔ ('.') ∉ s.data := by
  rw [dotFreeB, List.all_eq_true]
  constructor
  · intro h hdot
    have := h _ hdot
    simp at this
  · intro h c hc
    simp
    intro he
    exact h (he ▸ hc)

theorem joinDot_cons (k : String) (p : List String) (h : p ≠ []) :
    joinDot (k :: p) = k ++ "." ++ joinDot p := by
  cases p with
  | nil => exact absurd rfl h
  | cons a l => rfl

theorem chopDot :
    ∀ (a b r s : List Char), ('.') ∉ a → ('.') ∉ b →
      a ++ '.' :: r = b ++ '.' :: s → a = b ∧ r = s := by
  intro a
  induction a with
  | nil =>
    intro b r s _ hb h
    cases b with
    | nil => simpa using h
    | cons c bt =>
      simp at h
      exact absurd (by rw [h.1]; exact List.mem_cons_self c bt) hb
  | cons c at_ ih =>
    intro b r s ha hb h
    cases b with
    | nil =>
      simp at h
      exact absurd (by rw [← h.1]; exact List.mem_cons_self c at_) ha
    | cons c2 bt =>
      simp only [List.cons_append, List.cons.injEq] at h
      obtain ⟨rfl, h2⟩ := h
      obtain ⟨h3, h4⟩ := ih bt r s
        (fun hm => ha (List.mem_cons_of_mem _ hm))
        (fun hm => hb (List.mem_cons_of_mem _ hm)) h2
      exact ⟨by rw [h3], h4⟩

theorem joinDot_inj :
    ∀ (p q : List String), p ≠ [] → q ≠ [] →
      (∀ x ∈ p, dotFreeB x = true) → (∀ x ∈ q, dotFreeB x = true) →
      joinDot p = joinDot q → p = q := by
  intro p
  induction p with
  | nil => intro q h; exact absurd rfl h
  | cons a p2 ih =>
    intro q _ hq hdp hdq h
    cases q with
    | nil => exact absurd rfl hq
    | cons b q2 =>
      by_cases hp2 : p2 = []
      · subst hp2
        by_cases hq2 : q2 = []
        · subst hq2
          rw [show joinDot [a] = a from rfl, show joinDot [b] = b from rfl] at h
          rw [h]
        · rw [show joinDot [a] = a from rfl, joinDot_cons b q2 hq2] at h
          exfalso
          have hda := (dotFreeB_iff a).mp (hdp a (by simp))
          apply hda
          rw [h]
          rw [String.data_append, String.data_append]
          refine List.mem_append.mpr (Or.inl (List.mem_append.mpr (Or.inr ?_)))
          decide
      · by_cases hq2 : q2 = []
        · subst hq2
          rw [joinDot_cons a p2 hp2, show joinDot [b] = b from rfl] at h
          exfalso
          have hdb := (dotFreeB_iff b).mp (hdq b (by simp))
          apply hdb
          rw [← h]
          rw [String.data_append, String.data_append]
          refine List.mem_append.mpr (Or.inl (List.mem_append.mpr (Or.inr ?_)))
          decide
        · rw [joinDot_cons a p2 hp2, joinDot_cons b q2 hq2] at h
          have hdata : a.data ++ '.' :: (joinDot p2).data =
              b.data ++ '.' :: (joinDot q2).data := by
            have h2 := congrArg String.data h
            rw [String.data_append, String.data_append, String.data_append,
              String.data_append] at h2
            simpa using h2
          obtain ⟨h1, h2⟩ := chopDot a.data b.data (joinDot p2).data
            (joinDot q2).data
            ((dotFreeB_iff a).mp (hdp a (by simp)))
            ((dotFreeB_iff b).mp (hdq b (by simp))) hdata
          have hab : a = b := String.ext h1
          have hjoin : joinDot p2 = joinDot q2 := String.ext h2
          rw [hab,
            ih q2 hp2 hq2 (fun x hx => hdp x (by simp [hx]))
              (fun x hx => hdq x (by simp [hx])) hjoin]

/-! ### Claim C8: the lifecycle boundary signal names -/

/-- C8 (counterexample): for the one-spool set `["s"]`, the specification
claims the boundary signal `app:start`, but the `Core` binding functions
neither emit nor wait on it (the actual name is `fabrix:start`). -/
theorem boundary_signals_counterexample :
    "app:start" ∈ claimedBoundarySignals ["s"] ∧
    "app:start" ∉ coreBoundarySignals ["s"] ∧
    "fabrix:start" ∈ coreBoundarySignals ["s"] := by
  refine ⟨by decide, by decide, by decide⟩

/-- C8 (amended): for every spool set, the signals emitted and waited on at
the lifecycle boundaries by `Core.bindSpoolPhaseListeners`,
`Core.bindApplicationListeners` and `Core.bindSpoolMethodListeners` (with
no spool-declared extras) are exactly `fabrix:start`,
`spool:<name>:validated`, `spool:<name>:configured`,
`spool:<name>:initialized`, `spool:all:validated`, `spool:all:configured`,
`spool:all:initialized`, `fabrix:ready` and `fabrix:stop`. -/
theorem coreBoundarySignals_exact (spoolNames : List String) (x : String) :
    x ∈ coreBoundarySignals spoolNames ↔
      (x = "fabrix:start" ∨ x = "fabrix:ready" ∨ x = "fabrix:stop" ∨
       x = "spool:all:validated" ∨ x = "spool:all:configured" ∨
       x = "spool:all:initialized" ∨
       (∃ s ∈ spoolNames,
         x = "spool:" ++ s ++ ":validated" ∨
         x = "spool:" ++ s ++ ":configured" ∨
         x = "spool:" ++ s ++ ":initialized")) := by
  simp only [coreBoundarySignals, bindSpoolPhaseWaited, bindSpoolPhaseEmitted,
    bindApplicationConsumed, bindSpoolMethodWaited, bindSpoolMethodEmitted,
    List.flatten, List.mem_append, List.mem_flatMap, List.mem_map,
    List.mem_cons, List.not_mem_nil, List.append_nil, List.nil_append,
    List.mem_singleton, or_false, false_or]
  constructor
  · intro h
    rcases h with ((((h | h | h) | h) | h) | h) | h
    · obtain ⟨s, hs, he⟩ := h
      exact Or.inr (Or.inr (Or.inr (Or.inr (Or.inr (Or.inr
        ⟨s, hs, Or.inr (Or.inl he.symm)⟩)))))
    · obtain ⟨s, hs, he⟩ := h
      exact Or.inr (Or.inr (Or.inr (Or.inr (Or.inr (Or.inr
        ⟨s, hs, Or.inl he.symm⟩)))))
    · obtain ⟨s, hs, he⟩ := h
      exact Or.inr (Or.inr (Or.inr (Or.inr (Or.inr (Or.inr
        ⟨s, hs, Or.inr (Or.inr he.symm)⟩)))))
    · tauto
    · tauto
    · obtain ⟨s, hs, he⟩ := h
      rcases he with he | he | he
      · exact Or.inr (Or.inr (Or.inr (Or.inr (Or.inr (Or.inr
          ⟨s, hs, Or.inr (Or.inr he)⟩)))))
      · exact Or.inr (Or.inr (Or.inr (Or.inr (Or.inr (Or.inr
          ⟨s, hs, Or.inr (Or.inl he)⟩)))))
      · exact Or.inr (Or.inr (Or.inr (Or.inr (Or.inr (Or.inr
          ⟨s, hs, Or.inl he⟩)))))
    · tauto
  · intro h
    rcases h with h | h | h | h | h | h | ⟨s, hs, h | h | h⟩
    · tauto
    · tauto
    · tauto
    · tauto
    · tauto
    · tauto
    · exact Or.inl (Or.inr ⟨s, hs, Or.inr (Or.inr h)⟩)
    · exact Or.inl (Or.inr ⟨s, hs, Or.inr (Or.inl h)⟩)
    · exact Or.inl (Or.inr ⟨s, hs, Or.inl h⟩)

/-! ### Claim C2: immutability of retrieved values -/

/-- The heap of the C2 scenario: address 0 holds the sub-object at key `a`
(`{b: <ref 1>}`), address 1 holds the sub-object at key `a.b` (`{c: 1}`);
the flattened entries share these references, as `flattenTree` stores the
original sub-objects. -/
def c2heap : Heap :=
  [(0, ⟨false, [("b", .jref 1)]⟩), (1, ⟨false, [("c", .jprim 1)]⟩)]

/-- The store of the C2 scenario, as the constructor builds it from the
tree `{a: {b: {c: 1}}}` (sharing references with the tree). -/
def c2store : List (String × JVal) :=
  [("a", .jref 0), ("a.b", .jref 1), ("a.b.c", .jprim 1)]

/-- C2: on the frozen store built from `{a: {b: {c: 1}}}`, the caller
retrieves `config.a` through the proxy (freezing only address 0), reaches
the raw inner object `config.a.b` through the wrapped value (the handler
else-branch returns it unfrozen and unproxied), successfully mutates its
field `c` — and a subsequent read of `a.b` observes the new value, where it
observed `1` before. Retrieval therefore does not protect nested values. -/
theorem proxy_nested_mutation_changes_read :
    (proxyGetTop c2store true c2heap "a").1 = some (.jref 0) ∧
    proxyGetNested (proxyGetTop c2store true c2heap "a").2 (.jref 0) "b" =
      some (.jref 1) ∧
    proxyGetNested (proxyGetTop c2store true c2heap "a").2 (.jref 1) "c" =
      some (.jprim 1) ∧
    configGetMethod c2store "a.b" = some (.jref 1) ∧
    proxyGetNested
        (heapWrite (proxyGetTop c2store true c2heap "a").2 1 "c" (.jprim 2))
        (.jref 1) "c" = some (.jprim 2) ∧
    proxyGetNested
        (heapWrite (proxyGetTop c2store true c2heap "a").2 1 "c" (.jprim 2))
        (.jref 1) "c" ≠
      proxyGetNested c2heap (.jref 1) "c" := by
  refine ⟨by decide, by decide, by decide, by decide, by decide, by decide⟩

/-! ### Claims C6 and C7: counterexamples -/

/-- The store built by the `Configuration` constructor machinery from the
tree `{a: {b: 1}}` (taking the built configuration as given). -/
def c6cfg : Configuration :=
  { store := (flattenTree (.obj [("a", .obj [("b", .vnum 1)])])).foldl
      (fun m kv => objUpsert m kv.1 kv.2) [],
    immutable := false }

/-- C6 (counterexample): after `set("a.b", 2)` on the store built from
`{a: {b: 1}}`, the direct entry `a.b` reads `2` while descending the
composite entry `a` still reads `1` — `set` does not re-synchronise
ancestor prefix entries. -/
theorem set_breaks_prefix_sync :
    (c6cfg.set "a.b" (.vnum 2)).map
        (fun c2 => ((c2.get "a").bind (fun v => lookupField v "b"),
          c2.get "a.b")) =
      .ok (some (.vnum 1), some (.vnum 2)) ∧
    some (CVal.vnum 1) ≠ some (CVal.vnum 2) := by
  constructor
  · simp +decide [c6cfg, flattenTree, flattenFields, addEntry, addFlat,
      objUpsert, isObjLike, Configuration.set, Configuration.get,
      lookupField, List.lookup, Except.map]
  · simp

/-- The C7 counterexample input: a user list `a = [1, 2]` with an
environment overlay list `a = [9]` for environment `test`. -/
def c7tree : CVal :=
  .obj [("a", .arr [.vnum 1, .vnum 2]),
        ("env", .obj [("test", .obj [("a", .arr [.vnum 9])])])]

/-- C7 (counterexample): `buildConfig` does not replace the earlier list
wholesale with the later layer list (which would give `a = [9]`); lodash
`merge` combines them index-wise, producing `a = [9, 2]`. -/
theorem buildConfig_list_not_replaced :
    (Configuration.buildConfig c7tree (some "test") "/r").map
        (fun C => lookupField C "a") =
      .ok (some (.arr [.vnum 9, .vnum 2])) ∧
    (Configuration.buildConfig c7tree (some "test") "/r").map
        (fun C => lookupField C "a") ≠
      .ok (some (.arr [.vnum 9])) := by
  have h : (Configuration.buildConfig c7tree (some "test") "/r").map
      (fun C => lookupField C "a") =
      .ok (some (.arr [.vnum 9, .vnum 2])) := by
    simp +decide [c7tree, Configuration.buildConfig,
      Configuration.initialResources, Configuration.envOverlay,
      Configuration.envTag, Configuration.pathResolve, lookupField, jsTruthy,
      lmerge, mergeFields, mergeElems, List.lookup, Except.map]
  refine ⟨h, ?_⟩
  rw [h]
  simp

/-! ### Validity, subtrees and array indexing -/

theorem nodup_mem_lookup {fs : List (String × CVal)} {k : String} {v : CVal}
    (hnd : nodupKeysB fs = true) (hmem : (k, v) ∈ fs) :
    fs.lookup k = some v := by
  induction fs with
  | nil => simp at hmem
  | cons hd tl ih =>
    obtain ⟨k1, v1⟩ := hd
    simp only [nodupKeysB, Bool.and_eq_true, Bool.not_eq_eq_eq_not,
      Bool.not_true] at hnd
    rcases List.mem_cons.mp hmem with he | htl
    · obtain ⟨rfl, rfl⟩ := Prod.mk.injEq .. ▸ And.intro
        (congrArg Prod.fst he) (congrArg Prod.snd he)
      simp [List.lookup]
    · have hne : k ≠ k1 := by
        intro hkk
        subst hkk
        have := List.any_eq_false.mp hnd.1 (k, v) htl
        simp at this
      have hne2 : (k == k1) = false := by simp [hne]
      rw [List.lookup, hne2]
      exact ih hnd.2 htl

theorem validFields_mem {fs : List (String × CVal)} {k : String} {v : CVal}
    (hv : validFields fs = true) (hmem : (k, v) ∈ fs) :
    dotFreeB k = true ∧ validB v = true := by
  induction fs with
  | nil => simp at hmem
  | cons hd tl ih =>
    obtain ⟨k1, v1⟩ := hd
    rw [validFields] at hv
    simp only [Bool.and_eq_true] at hv
    rcases List.mem_cons.mp hmem with he | htl
    · have h1 : k = k1 := congrArg Prod.fst he
      have h2 : v = v1 := congrArg Prod.snd he
      subst h1
      subst h2
      exact ⟨hv.1.1, hv.1.2⟩
    · exact ih hv.2 htl

theorem validElems_mem {xs : List CVal} {v : CVal}
    (hv : validElems xs = true) (hmem : v ∈ xs) : validB v = true := by
  induction xs with
  | nil => simp at hmem
  | cons hd tl ih =>
    rw [validElems] at hv
    simp only [Bool.and_eq_true] at hv
    rcases List.mem_cons.mp hmem with he | htl
    · subst he; exact hv.1
    · exact ih hv.2 htl

theorem subtreeAt_obj_cons (fs : List (String × CVal)) (k : String)
    (rest : List String) :
    subtreeAt (.obj fs) (k :: rest) =
      match fs.lookup k with
      | some v => subtreeAt v rest
      | none => none := by
  rw [subtreeAt]

theorem subtreeAt_arr_cons (xs : List CVal) (k : String)
    (rest : List String) :
    subtreeAt (.arr xs) (k :: rest) =
      match arrIndex xs k with
      | some v => subtreeAt v rest
      | none => none := by
  rw [subtreeAt]

theorem subtreeAt_nil (t : CVal) : subtreeAt t [] = some t := by
  rw [subtreeAt]

theorem subtreeAt_scalar_cons (t : CVal) (k : String) (rest : List String)
    (h : isScalar t = true) : subtreeAt t (k :: rest) = none := by
  cases t <;> simp_all [isScalar, isObjLike] <;> (rw [subtreeAt] <;> simp)

theorem isObjLike_of_subtree_cons {t : CVal} {k : String}
    {rest : List String} {w : CVal} (h : subtreeAt t (k :: rest) = some w) :
    isObjLike t = true := by
  cases t with
  | obj fs => rfl
  | arr xs => rfl
  | vnull =>
    rw [subtreeAt_scalar_cons .vnull k rest (by rfl)] at h
    exact absurd h (by simp)
  | vbool b =>
    rw [subtreeAt_scalar_cons (.vbool b) k rest (by rfl)] at h
    exact absurd h (by simp)
  | vnum n =>
    rw [subtreeAt_scalar_cons (.vnum n) k rest (by rfl)] at h
    exact absurd h (by simp)
  | vstr s =>
    rw [subtreeAt_scalar_cons (.vstr s) k rest (by rfl)] at h
    exact absurd h (by simp)

theorem subtreeAt_append (p : List String) :
    ∀ (q : List String) (t : CVal),
      subtreeAt t (p ++ q) =
        match subtreeAt t p with
        | some v => subtreeAt v q
        | none => none := by
  induction p with
  | nil => intro q t; simp [subtreeAt]
  | cons k p2 ih =>
    intro q t
    cases t with
    | obj fs =>
      rw [List.cons_append, subtreeAt_obj_cons, subtreeAt_obj_cons]
      cases fs.lookup k with
      | some v => exact ih q v
      | none => rfl
    | arr xs =>
      rw [List.cons_append, subtreeAt_arr_cons, subtreeAt_arr_cons]
      cases arrIndex xs k with
      | some v => exact ih q v
      | none => rfl
    | vnull =>
      rw [List.cons_append, subtreeAt_scalar_cons .vnull k (p2 ++ q) (by rfl),
        subtreeAt_scalar_cons .vnull k p2 (by rfl)]
    | vbool b =>
      rw [List.cons_append,
        subtreeAt_scalar_cons (.vbool b) k (p2 ++ q) (by rfl),
        subtreeAt_scalar_cons (.vbool b) k p2 (by rfl)]
    | vnum n =>
      rw [List.cons_append,
        subtreeAt_scalar_cons (.vnum n) k (p2 ++ q) (by rfl),
        subtreeAt_scalar_cons (.vnum n) k p2 (by rfl)]
    | vstr s =>
      rw [List.cons_append,
        subtreeAt_scalar_cons (.vstr s) k (p2 ++ q) (by rfl),
        subtreeAt_scalar_cons (.vstr s) k p2 (by rfl)]

/-! ### Array index keys address exactly the array elements -/

theorem enumFrom_find_natStr (xs : List CVal) :
    ∀ (s i : Nat),
      ((List.enumFrom s xs).find?
          (fun p => natStr p.1 == natStr (s + i))).map Prod.snd =
        xs.get? i := by
  induction xs with
  | nil => intro s i; simp
  | cons x tl ih =>
    intro s i
    rw [List.enumFrom, List.find?]
    cases i with
    | zero =>
      simp
    | succ j =>
      have hne : (natStr s == natStr (s + (j + 1))) = false := by
        rw [beq_eq_false_iff_ne]
        intro he
        have := natStr_inj he
        omega
      rw [hne]
      have := ih (s + 1) j
      rw [show s + 1 + j = s + (j + 1) from by omega] at this
      rw [this]
      rfl

theorem arrIndex_natStr (xs : List CVal) (i : Nat) :
    arrIndex xs (natStr i) = xs.get? i := by
  have h := enumFrom_find_natStr xs 0 i
  rw [Nat.zero_add] at h
  exact h

theorem arrIndex_some_inv {xs : List CVal} {k : String} {v : CVal}
    (h : arrIndex xs k = some v) :
    ∃ i, k = natStr i ∧ xs.get? i = some v := by
  rw [arrIndex] at h
  cases hfind : (xs.enum.find? (fun p => natStr p.1 == k)) with
  | none => rw [hfind] at h; simp at h
  | some pr =>
    rw [hfind] at h
    simp at h
    have hp := List.find?_some hfind
    have hmem := List.mem_of_find?_eq_some hfind
    have hget := List.mem_enum_iff_get?.mp hmem
    refine ⟨pr.1, ?_, ?_⟩
    · exact (eq_of_beq hp).symm
    · rw [hget, h]

/-! ### Validity is hereditary; reachable path segments are dot-free -/

theorem validB_obj_parts {fs : List (String × CVal)}
    (h : validB (.obj fs) = true) :
    nodupKeysB fs = true ∧ validFields fs = true := by
  rw [validB] at h
  exact Bool.and_eq_true_iff.mp h

theorem validB_arr_part {xs : List CVal} (h : validB (.arr xs) = true) :
    validElems xs = true := by
  rw [validB] at h
  exact h

theorem validB_subtree :
    ∀ (p : List String) (t : CVal) {w : CVal}, validB t = true →
      subtreeAt t p = some w → validB w = true := by
  intro p
  induction p with
  | nil =>
    intro t w hv h
    rw [subtreeAt] at h
    cases h
    exact hv
  | cons k p2 ih =>
    intro t w hv h
    cases t with
    | obj fs =>
      rw [subtreeAt_obj_cons] at h
      cases hlk : fs.lookup k with
      | none => rw [hlk] at h; exact absurd h (by simp)
      | some v =>
        rw [hlk] at h
        have hm := lookup_mem hlk
        have hparts := validB_obj_parts hv
        exact ih v (validFields_mem hparts.2 hm).2 h
    | arr xs =>
      rw [subtreeAt_arr_cons] at h
      cases hlk : arrIndex xs k with
      | none => rw [hlk] at h; exact absurd h (by simp)
      | some v =>
        rw [hlk] at h
        obtain ⟨i, _, hget⟩ := arrIndex_some_inv hlk
        exact ih v (validElems_mem (validB_arr_part hv) (List.get?_mem hget)) h
    | vnull =>
      rw [subtreeAt_scalar_cons .vnull k p2 (by rfl)] at h
      exact absurd h (by simp)
    | vbool b =>
      rw [subtreeAt_scalar_cons (.vbool b) k p2 (by rfl)] at h
      exact absurd h (by simp)
    | vnum n =>
      rw [subtreeAt_scalar_cons (.vnum n) k p2 (by rfl)] at h
      exact absurd h (by simp)
    | vstr s =>
      rw [subtreeAt_scalar_cons (.vstr s) k p2 (by rfl)] at h
      exact absurd h (by simp)

theorem path_dotFree :
    ∀ (p : List String) (t : CVal) {w : CVal}, validB t = true →
      subtreeAt t p = some w → ∀ s ∈ p, dotFreeB s = true := by
  intro p
  induction p with
  | nil => intro t w _ _ s hs; simp at hs
  | cons k p2 ih =>
    intro t w hv h s hs
    cases t with
    | obj fs =>
      rw [subtreeAt_obj_cons] at h
      cases hlk : fs.lookup k with
      | none => rw [hlk] at h; exact absurd h (by simp)
      | some v =>
        rw [hlk] at h
        have hm := lookup_mem hlk
        have hparts := validB_obj_parts hv
        have hkv := validFields_mem hparts.2 hm
        rcases List.mem_cons.mp hs with rfl | hs2
        · exact hkv.1
        · exact ih v hkv.2 h s hs2
    | arr xs =>
      rw [subtreeAt_arr_cons] at h
      cases hlk : arrIndex xs k with
      | none => rw [hlk] at h; exact absurd h (by simp)
      | some v =>
        rw [hlk] at h
        obtain ⟨i, hk, hget⟩ := arrIndex_some_inv hlk
        rcases List.mem_cons.mp hs with rfl | hs2
        · rw [hk]; exact dotFreeB_natStr i
        · exact ih v (validElems_mem (validB_arr_part hv) (List.get?_mem hget))
            h s hs2
    | vnull =>
      rw [subtreeAt_scalar_cons .vnull k p2 (by rfl)] at h
      exact absurd h (by simp)
    | vbool b =>
      rw [subtreeAt_scalar_cons (.vbool b) k p2 (by rfl)] at h
      exact absurd h (by simp)
    | vnum n =>
      rw [subtreeAt_scalar_cons (.vnum n) k p2 (by rfl)] at h
      exact absurd h (by simp)
    | vstr s2 =>
      rw [subtreeAt_scalar_cons (.vstr s2) k p2 (by rfl)] at h
      exact absurd h (by simp)

/-! ### Size bounds for the recursion of the soundness proof -/

theorem sizeOf_mem_list {fs : List (String × CVal)} {k : String} {v : CVal}
    (h : (k, v) ∈ fs) : sizeOf v < sizeOf fs := by
  induction fs with
  | nil => simp at h
  | cons hd tl ih =>
    rcases List.mem_cons.mp h with he | htl
    · obtain ⟨k1, v1⟩ := hd
      have : v = v1 := congrArg Prod.snd he
      subst this
      simp
      omega
    · have := ih htl
      cases hd
      simp
      omega

theorem sizeOf_mem_fields {fs : List (String × CVal)} {k : String} {v : CVal}
    (h : (k, v) ∈ fs) : sizeOf v < sizeOf (CVal.obj fs) := by
  have := sizeOf_mem_list h
  simp
  omega

theorem sizeOf_mem_elems {xs : List CVal} {v : CVal} (h : v ∈ xs) :
    sizeOf v < sizeOf (CVal.arr xs) := by
  have h2 : sizeOf v < sizeOf xs := by
    induction xs with
    | nil => simp at h
    | cons hd tl ih =>
      rcases List.mem_cons.mp h with he | htl
      · subst he; simp; omega
      · have := ih htl; simp; omega
  simp
  omega

/-! ### Every flattened entry comes from an assignment -/

theorem mem_addFlat (k : String) (flat : List (String × CVal)) :
    ∀ (acc : List (String × CVal)) (e : String × CVal), e ∈ addFlat k flat acc →
      e ∈ acc ∨ ∃ q w, (q, w) ∈ flat ∧ e = (k ++ "." ++ q, w) := by
  induction flat with
  | nil => intro acc e he; exact Or.inl (by simpa [addFlat] using he)
  | cons hd tl ih =>
    intro acc e he
    obtain ⟨q1, w1⟩ := hd
    have he2 : e ∈ addFlat k tl (objUpsert acc (k ++ "." ++ q1) w1) := he
    rcases ih _ e he2 with h | ⟨q, w, hm, heq⟩
    · rcases mem_objUpsert _ _ _ e h with h2 | h2
      · exact Or.inr ⟨q1, w1, List.mem_cons_self _ _, h2⟩
      · exact Or.inl h2
    · exact Or.inr ⟨q, w, List.mem_cons_of_mem _ hm, heq⟩

theorem mem_addEntry (k : String) (v : CVal) (acc : List (String × CVal))
    (e : String × CVal) (he : e ∈ addEntry k v acc) :
    e = (k, v) ∨ e ∈ acc ∨
      (isObjLike v = true ∧
        ∃ q w, (q, w) ∈ flattenTree v ∧ e = (k ++ "." ++ q, w)) := by
  rw [addEntry] at he
  rcases mem_objUpsert _ _ _ e he with he1 | he1
  · exact Or.inl he1
  · by_cases hv : isObjLike v = true
    · rw [if_pos hv] at he1
      rcases mem_addFlat k (flattenTree v) acc e he1 with h | ⟨q, w, hm, heq⟩
      · exact Or.inr (Or.inl h)
      · exact Or.inr (Or.inr ⟨hv, q, w, hm, heq⟩)
    · rw [if_neg hv] at he1
      exact Or.inr (Or.inl he1)

theorem mem_flattenFields (fs : List (String × CVal)) :
    ∀ (acc : List (String × CVal)) (e : String × CVal),
      e ∈ flattenFields fs acc →
      e ∈ acc ∨ ∃ k v, (k, v) ∈ fs ∧
        (e = (k, v) ∨ (isObjLike v = true ∧
          ∃ q w, (q, w) ∈ flattenTree v ∧ e = (k ++ "." ++ q, w))) := by
  induction fs with
  | nil => intro acc e he; rw [flattenFields] at he; exact Or.inl he
  | cons hd tl ih =>
    intro acc e he
    obtain ⟨k1, v1⟩ := hd
    rw [flattenFields] at he
    rcases ih _ e he with h | ⟨k, v, hm, hcase⟩
    · rcases mem_addEntry k1 v1 acc e h with h2 | h2 | h2
      · exact Or.inr ⟨k1, v1, List.mem_cons_self _ _, Or.inl h2⟩
      · exact Or.inl h2
      · exact Or.inr ⟨k1, v1, List.mem_cons_self _ _, Or.inr h2⟩
    · exact Or.inr ⟨k, v, List.mem_cons_of_mem _ hm, hcase⟩

theorem mem_flattenElems (xs : List CVal) :
    ∀ (i : Nat) (acc : List (String × CVal)) (e : String × CVal),
      e ∈ flattenElems i xs acc →
      e ∈ acc ∨ ∃ j v, xs.get? j = some v ∧
        (e = (natStr (i + j), v) ∨ (isObjLike v = true ∧
          ∃ q w, (q, w) ∈ flattenTree v ∧ e = (natStr (i + j) ++ "." ++ q, w))) := by
  induction xs with
  | nil => intro i acc e he; rw [flattenElems] at he; exact Or.inl he
  | cons hd tl ih =>
    intro i acc e he
    rw [flattenElems] at he
    rcases ih (i + 1) _ e he with h | ⟨j, v, hget, hcase⟩
    · rcases mem_addEntry (natStr i) hd acc e h with h2 | h2 | h2
      · exact Or.inr ⟨0, hd, rfl, Or.inl (by simpa using h2)⟩
      · exact Or.inl h2
      · refine Or.inr ⟨0, hd, rfl, Or.inr ?_⟩
        simpa using h2
    · refine Or.inr ⟨j + 1, v, by simpa using hget, ?_⟩
      rw [show i + (j + 1) = i + 1 + j from by omega]
      exact hcase

/-- Soundness of flattening: every entry of `flattenTree t` is addressed by
a unique dotted path of `t` and carries exactly the sub-value there. -/
theorem flatten_sound :
    ∀ (n : Nat) (t : CVal), sizeOf t ≤ n → validB t = true →
      ∀ e ∈ flattenTree t,
        ∃ p, p ≠ [] ∧ (∀ s ∈ p, dotFreeB s = true) ∧ joinDot p = e.1 ∧
          subtreeAt t p = some e.2 := by
  intro n
  induction n with
  | zero =>
    intro t h
    exact absurd h (by cases t <;> simp)
  | succ m ih =>
    intro t hsz hv e he
    cases t with
    | obj fs =>
      rw [flattenTree] at he
      rcases mem_flattenFields fs [] e he with h | ⟨k, v, hmem, hcase⟩
      · simp at h
      · have hparts := validB_obj_parts hv
        have hkv := validFields_mem hparts.2 hmem
        have hlk : fs.lookup k = some v := nodup_mem_lookup hparts.1 hmem
        rcases hcase with he1 | ⟨hobj, q, w, hqw, he1⟩
        · subst he1
          refine ⟨[k], by simp, ?_, rfl, ?_⟩
          · intro s hs
            rcases List.mem_cons.mp hs with rfl | hs2
            · exact hkv.1
            · simp at hs2
          · rw [subtreeAt_obj_cons, hlk]
            exact subtreeAt_nil v
        · have hszv : sizeOf v ≤ m := by
            have h2 := sizeOf_mem_fields hmem
            omega
          obtain ⟨p2, hp2, hdf2, hj2, hsub2⟩ := ih v hszv hkv.2 (q, w) hqw
          subst he1
          refine ⟨k :: p2, by simp, ?_, ?_, ?_⟩
          · intro s hs
            rcases List.mem_cons.mp hs with rfl | hs2
            · exact hkv.1
            · exact hdf2 s hs2
          · rw [joinDot_cons k p2 hp2, hj2]
          · rw [subtreeAt_obj_cons, hlk]
            exact hsub2
    | arr xs =>
      rw [flattenTree] at he
      rcases mem_flattenElems xs 0 [] e he with h | ⟨j, v, hget, hcase⟩
      · simp at h
      · have hvx : validB v = true :=
          validElems_mem (validB_arr_part hv) (List.get?_mem hget)
        rcases hcase with he1 | ⟨hobj, q, w, hqw, he1⟩
        · rw [Nat.zero_add] at he1
          subst he1
          refine ⟨[natStr j], by simp, ?_, by rfl, ?_⟩
          · intro s hs
            rcases List.mem_cons.mp hs with rfl | hs2
            · exact dotFreeB_natStr j
            · simp at hs2
          · rw [subtreeAt_arr_cons, arrIndex_natStr, hget]
            exact subtreeAt_nil v
        · have hszv : sizeOf v ≤ m := by
            have h2 := sizeOf_mem_elems (List.get?_mem hget)
            omega
          obtain ⟨p2, hp2, hdf2, hj2, hsub2⟩ := ih v hszv hvx (q, w) hqw
          rw [Nat.zero_add] at he1
          subst he1
          refine ⟨natStr j :: p2, by simp, ?_, ?_, ?_⟩
          · intro s hs
            rcases List.mem_cons.mp hs with rfl | hs2
            · exact dotFreeB_natStr j
            · exact hdf2 s hs2
          · rw [joinDot_cons _ p2 hp2, hj2]
          · rw [subtreeAt_arr_cons, arrIndex_natStr, hget]
            exact hsub2
    | vnull => simp [flattenTree] at he
    | vbool b => simp [flattenTree] at he
    | vnum n2 => simp [flattenTree] at he
    | vstr s => simp [flattenTree] at he

/-! ### Every reachable path is present in the flattening -/

theorem addFlat_cons (k : String) (hd : String × CVal)
    (tl acc : List (String × CVal)) :
    addFlat k (hd :: tl) acc =
      addFlat k tl (objUpsert acc (k ++ "." ++ hd.1) hd.2) := rfl

theorem isSome_addFlat_mono (k : String) (flat : List (String × CVal)) :
    ∀ (acc : List (String × CVal)) (k2 : String),
      ((acc.lookup k2).isSome = true) →
      (((addFlat k flat acc).lookup k2).isSome = true) := by
  induction flat with
  | nil => intro acc k2 h; simpa [addFlat] using h
  | cons hd tl ih =>
    intro acc k2 h
    have h2 : ((objUpsert acc (k ++ "." ++ hd.1) hd.2).lookup k2).isSome =
        true := by
      rw [lookup_objUpsert_isSome, h]
      simp
    exact ih _ _ h2

theorem isSome_addFlat_hit (k : String) (flat : List (String × CVal)) :
    ∀ (acc : List (String × CVal)) (q : String) (w : CVal), (q, w) ∈ flat →
      (((addFlat k flat acc).lookup (k ++ "." ++ q)).isSome = true) := by
  induction flat with
  | nil => intro acc q w h; simp at h
  | cons hd tl ih =>
    intro acc q w h
    rcases List.mem_cons.mp h with he | htl
    · have h1 : q = hd.1 := congrArg Prod.fst he
      subst h1
      rw [addFlat_cons]
      apply isSome_addFlat_mono
      rw [lookup_objUpsert_isSome]
      simp
    · exact ih _ _ _ htl

theorem isSome_addEntry_mono (k : String) (v : CVal)
    (acc : List (String × CVal)) (k2 : String)
    (h : (acc.lookup k2).isSome = true) :
    ((addEntry k v acc).lookup k2).isSome = true := by
  rw [addEntry, lookup_objUpsert_isSome]
  by_cases hv : isObjLike v = true
  · rw [if_pos hv, isSome_addFlat_mono k _ acc k2 h]
    simp
  · rw [if_neg hv, h]
    simp

theorem isSome_addEntry_self (k : String) (v : CVal)
    (acc : List (String × CVal)) :
    ((addEntry k v acc).lookup k).isSome = true := by
  rw [addEntry, lookup_objUpsert_isSome]
  simp

theorem isSome_addEntry_deep (k : String) (v : CVal)
    (acc : List (String × CVal)) (q : String) (w : CVal)
    (hv : isObjLike v = true) (hqw : (q, w) ∈ flattenTree v) :
    ((addEntry k v acc).lookup (k ++ "." ++ q)).isSome = true := by
  rw [addEntry, lookup_objUpsert_isSome, if_pos hv,
    isSome_addFlat_hit k _ acc q w hqw]
  simp

theorem isSome_flattenFields_mono (fs : List (String × CVal)) :
    ∀ (acc : List (String × CVal)) (k2 : String),
      ((acc.lookup k2).isSome = true) →
      (((flattenFields fs acc).lookup k2).isSome = true) := by
  induction fs with
  | nil => intro acc k2 h; rw [flattenFields]; exact h
  | cons hd tl ih =>
    intro acc k2 h
    obtain ⟨k1, v1⟩ := hd
    rw [flattenFields]
    exact ih _ _ (isSome_addEntry_mono k1 v1 acc k2 h)

theorem isSome_flattenFields_self (fs : List (String × CVal)) :
    ∀ (acc : List (String × CVal)) (k : String) (v : CVal), (k, v) ∈ fs →
      (((flattenFields fs acc).lookup k).isSome = true) := by
  induction fs with
  | nil => intro acc k v h; simp at h
  | cons hd tl ih =>
    intro acc k v h
    obtain ⟨k1, v1⟩ := hd
    rw [flattenFields]
    rcases List.mem_cons.mp h with he | htl
    · have h1 : k = k1 := congrArg Prod.fst he
      subst h1
      exact isSome_flattenFields_mono tl _ k (isSome_addEntry_self k v1 acc)
    · exact ih _ k v htl

theorem isSome_flattenFields_deep (fs : List (String × CVal)) :
    ∀ (acc : List (String × CVal)) (k : String) (v : CVal) (q : String)
      (w : CVal), (k, v) ∈ fs → isObjLike v = true →
      (q, w) ∈ flattenTree v →
      (((flattenFields fs acc).lookup (k ++ "." ++ q)).isSome = true) := by
  induction fs with
  | nil => intro acc k v q w h; simp at h
  | cons hd tl ih =>
    intro acc k v q w h hv hqw
    obtain ⟨k1, v1⟩ := hd
    rw [flattenFields]
    rcases List.mem_cons.mp h with he | htl
    · have h1 : k = k1 := congrArg Prod.fst he
      have h2 : v = v1 := congrArg Prod.snd he
      subst h1
      subst h2
      exact isSome_flattenFields_mono tl _ _
        (isSome_addEntry_deep k v acc q w hv hqw)
    · exact ih _ k v q w htl hv hqw

theorem isSome_flattenElems_mono (xs : List CVal) :
    ∀ (i : Nat) (acc : List (String × CVal)) (k2 : String),
      ((acc.lookup k2).isSome = true) →
      (((flattenElems i xs acc).lookup k2).isSome = true) := by
  induction xs with
  | nil => intro i acc k2 h; rw [flattenElems]; exact h
  | cons hd tl ih =>
    intro i acc k2 h
    rw [flattenElems]
    exact ih _ _ _ (isSome_addEntry_mono (natStr i) hd acc k2 h)

theorem isSome_flattenElems_self (xs : List CVal) :
    ∀ (i j : Nat) (acc : List (String × CVal)) (v : CVal),
      xs.get? j = some v →
      (((flattenElems i xs acc).lookup (natStr (i + j))).isSome = true) := by
  induction xs with
  | nil => intro i j acc v h; simp at h
  | cons hd tl ih =>
    intro i j acc v h
    rw [flattenElems]
    cases j with
    | zero =>
      exact isSome_flattenElems_mono tl _ _ _
        (by simpa using isSome_addEntry_self (natStr i) hd acc)
    | succ j2 =>
      have h2 : tl.get? j2 = some v := by simpa using h
      have := ih (i + 1) j2 (addEntry (natStr i) hd acc) v h2
      rw [show i + 1 + j2 = i + (j2 + 1) from by omega] at this
      exact this

theorem isSome_flattenElems_deep (xs : List CVal) :
    ∀ (i j : Nat) (acc : List (String × CVal)) (v : CVal) (q : String)
      (w : CVal), xs.get? j = some v → isObjLike v = true →
      (q, w) ∈ flattenTree v →
      (((flattenElems i xs acc).lookup
        (natStr (i + j) ++ "." ++ q)).isSome = true) := by
  induction xs with
  | nil => intro i j acc v q w h; simp at h
  | cons hd tl ih =>
    intro i j acc v q w h hv hqw
    rw [flattenElems]
    cases j with
    | zero =>
      have h0 : hd = v := by simpa using h
      subst h0
      exact isSome_flattenElems_mono tl _ _ _
        (by simpa using isSome_addEntry_deep (natStr i) hd acc q w hv hqw)
    | succ j2 =>
      have h2 : tl.get? j2 = some v := by simpa using h
      have := ih (i + 1) j2 (addEntry (natStr i) hd acc) v q w h2 hv hqw
      rw [show i + 1 + j2 = i + (j2 + 1) from by omega] at this
      exact this

/-- Completeness of flattening: the flattened entries contain a key for
every nonempty reachable dotted path. -/
theorem flatten_complete :
    ∀ (p : List String) (t : CVal) {w : CVal}, validB t = true → p ≠ [] →
      subtreeAt t p = some w →
      (((flattenTree t).lookup (joinDot p)).isSome = true) := by
  intro p
  induction p with
  | nil => intro t w _ hne; exact absurd rfl hne
  | cons k rest ih =>
    intro t w hv _ hsub
    cases t with
    | obj fs =>
      rw [subtreeAt_obj_cons] at hsub
      cases hlk : fs.lookup k with
      | none => rw [hlk] at hsub; exact absurd hsub (by simp)
      | some v =>
        rw [hlk] at hsub
        rw [flattenTree]
        cases rest with
        | nil =>
          exact isSome_flattenFields_self fs [] k v (lookup_mem hlk)
        | cons r1 r2 =>
          have hvo : isObjLike v = true := isObjLike_of_subtree_cons hsub
          have hvv : validB v = true := by
            have hparts := validB_obj_parts hv
            exact (validFields_mem hparts.2 (lookup_mem hlk)).2
          have hrec := ih v hvv (by simp) hsub
          obtain ⟨w2, hw2⟩ := Option.isSome_iff_exists.mp hrec
          rw [joinDot_cons k (r1 :: r2) (by simp)]
          exact isSome_flattenFields_deep fs [] k v (joinDot (r1 :: r2)) w2
            (lookup_mem hlk) hvo (lookup_mem hw2)
    | arr xs =>
      rw [subtreeAt_arr_cons] at hsub
      cases hlk : arrIndex xs k with
      | none => rw [hlk] at hsub; exact absurd hsub (by simp)
      | some v =>
        rw [hlk] at hsub
        obtain ⟨i, hk, hget⟩ := arrIndex_some_inv hlk
        subst hk
        rw [flattenTree]
        cases rest with
        | nil =>
          have := isSome_flattenElems_self xs 0 i [] v hget
          rwa [Nat.zero_add] at this
        | cons r1 r2 =>
          have hvo : isObjLike v = true := isObjLike_of_subtree_cons hsub
          have hvv : validB v = true :=
            validElems_mem (validB_arr_part hv) (List.get?_mem hget)
          have hrec := ih v hvv (by simp) hsub
          obtain ⟨w2, hw2⟩ := Option.isSome_iff_exists.mp hrec
          rw [joinDot_cons _ (r1 :: r2) (by simp)]
          have := isSome_flattenElems_deep xs 0 i [] v (joinDot (r1 :: r2)) w2
            hget hvo (lookup_mem hw2)
          rwa [Nat.zero_add] at this
    | vnull =>
      rw [subtreeAt_scalar_cons .vnull k rest (by rfl)] at hsub
      exact absurd hsub (by simp)
    | vbool b =>
      rw [subtreeAt_scalar_cons (.vbool b) k rest (by rfl)] at hsub
      exact absurd hsub (by simp)
    | vnum n =>
      rw [subtreeAt_scalar_cons (.vnum n) k rest (by rfl)] at hsub
      exact absurd hsub (by simp)
    | vstr s =>
      rw [subtreeAt_scalar_cons (.vstr s) k rest (by rfl)] at hsub
      exact absurd hsub (by simp)

/-- The flattened form of a valid tree maps the dotted key of every
nonempty reachable path to exactly the sub-value there. -/
theorem flatten_lookup (t : CVal) (hv : validB t = true) (p : List String)
    (hp : p ≠ []) {w : CVal} (hsub : subtreeAt t p = some w) :
    (flattenTree t).lookup (joinDot p) = some w := by
  have his := flatten_complete p t hv hp hsub
  obtain ⟨w2, hw2⟩ := Option.isSome_iff_exists.mp his
  have hmem := lookup_mem hw2
  obtain ⟨p2, hp2ne, hdf2, hj2, hsub2⟩ :=
    flatten_sound (sizeOf t) t le_rfl hv _ hmem
  have hpeq : p2 = p :=
    joinDot_inj p2 p hp2ne hp hdf2 (path_dotFree p t hv hsub) hj2
  subst hpeq
  rw [hsub] at hsub2
  rw [hw2]
  exact congrArg _ (Option.some.injEq .. ▸ hsub2).symm

/-! ### Claim C5: prefix-path completeness and the hold round-trip -/

theorem joinDot_append (p q : List String) (hp : p ≠ []) (hq : q ≠ []) :
    joinDot (p ++ q) = joinDot p ++ "." ++ joinDot q := by
  induction p with
  | nil => exact absurd rfl hp
  | cons a p2 ih =>
    by_cases hp2 : p2 = []
    · subst hp2
      rw [List.singleton_append, joinDot_cons a q hq]
      rfl
    · rw [List.cons_append, joinDot_cons a (p2 ++ q) (by simp [hp2]),
        ih hp2, joinDot_cons a p2 hp2]
      simp [String.append_assoc]

/-- Entries of the re-flattened flat map of a valid tree are still
addressed by paths of the original tree. -/
theorem flattenX_sound (T : CVal) (hv : validB T = true) :
    ∀ e ∈ flattenTree (.obj (flattenTree T)),
      ∃ p, p ≠ [] ∧ (∀ s ∈ p, dotFreeB s = true) ∧ joinDot p = e.1 ∧
        subtreeAt T p = some e.2 := by
  intro e he
  rw [flattenTree] at he
  rcases mem_flattenFields _ [] e he with h | ⟨k, v, hmem, hcase⟩
  · simp at h
  · obtain ⟨r, hrne, hrdf, hrj, hrsub⟩ :=
      flatten_sound (sizeOf T) T le_rfl hv (k, v) hmem
    rcases hcase with he1 | ⟨hobj, q, w, hqw, he1⟩
    · subst he1
      exact ⟨r, hrne, hrdf, hrj, hrsub⟩
    · have hvv : validB v = true := validB_subtree r T hv hrsub
      obtain ⟨r2, hr2ne, hr2df, hr2j, hr2sub⟩ :=
        flatten_sound (sizeOf v) v le_rfl hvv (q, w) hqw
      subst he1
      refine ⟨r ++ r2, by simp [hrne], ?_, ?_, ?_⟩
      · intro s hs
        rcases List.mem_append.mp hs with h2 | h2
        · exact hrdf s h2
        · exact hr2df s h2
      · rw [joinDot_append r r2 hrne hr2ne, hrj, hr2j]
      · rw [subtreeAt_append r r2 T, hrsub]
        exact hr2sub

/-- C5: for every valid tree `T`, `flattenTree T` contains an entry for
every nonempty reachable dotted path of `T` (in particular every prefix
path of every leaf), mapped to the sub-tree there; and merging the
flattened map back into any mutable store under the `hold` policy makes
every such path (in particular every leaf) read its original value. -/
theorem flatten_prefix_roundtrip (T : CVal) (hv : validB T = true)
    (p : List String) (hp : p ≠ []) (w : CVal)
    (hsub : subtreeAt T p = some w) (c : Configuration)
    (himm : c.immutable = false) :
    (flattenTree T).lookup (joinDot p) = some w ∧
    ∃ c' res, c.merge (.obj (flattenTree T)) "hold" = .ok (c', res) ∧
      c'.get (joinDot p) = some w := by
  have hlk := flatten_lookup T hv p hp hsub
  refine ⟨hlk, ?_⟩
  obtain ⟨c', hfold, _, _, hmemcl⟩ :=
    mergeFold_spec "hold" (flattenTree (.obj (flattenTree T))) c [] himm
      (nodupKeysB_flattenTree _)
  refine ⟨c', _, by rw [Configuration.merge]; exact hfold, ?_⟩
  have hpres : (((flattenTree (.obj (flattenTree T))).lookup
      (joinDot p)).isSome = true) := by
    rw [flattenTree]
    exact isSome_flattenFields_self _ [] (joinDot p) w (lookup_mem hlk)
  obtain ⟨w2, hw2⟩ := Option.isSome_iff_exists.mp hpres
  obtain ⟨p2, hp2ne, hp2df, hp2j, hp2sub⟩ :=
    flattenX_sound T hv _ (lookup_mem hw2)
  have hpeq : p2 = p :=
    joinDot_inj p2 p hp2ne hp hp2df (path_dotFree p T hv hsub) hp2j
  subst hpeq
  rw [hsub] at hp2sub
  have hw : w2 = w := by
    have := Option.some.injEq .. ▸ hp2sub
    simpa using this.symm
  subst hw
  rw [hmemcl (joinDot p2) w2 (lookup_mem hw2)]
  simp

/-- C5 witness: for the tree `{a: {b: 1}}`, the flattened map sends the
prefix path key `a.b` to the leaf value, and re-merging the flat map into
the empty store under `hold` reproduces it. -/
theorem flatten_prefix_roundtrip_witness :
    (flattenTree (CVal.obj [("a", CVal.obj [("b", CVal.vnum 1)])])).lookup
        "a.b" = some (CVal.vnum 1) ∧
    (∃ c' res,
      Configuration.merge ⟨[], false⟩
        (.obj (flattenTree (CVal.obj [("a", CVal.obj [("b", CVal.vnum 1)])])))
        "hold" = .ok (c', res) ∧
      c'.get "a.b" = some (CVal.vnum 1)) := by
  have h := flatten_prefix_roundtrip
    (CVal.obj [("a", CVal.obj [("b", CVal.vnum 1)])])
    (by simp +decide [validB, validFields, nodupKeysB, dotFreeB])
    ["a", "b"] (by simp) (CVal.vnum 1)
    (by simp +decide [subtreeAt_obj_cons, subtreeAt_nil, List.lookup])
    ⟨[], false⟩ rfl
  have hj : joinDot ["a", "b"] = "a.b" := by decide
  rw [hj] at h
  exact h

/-! ### Claim C6: the prefix-path invariant across mutations -/

theorem foldl_objUpsert_lookup (entries : List (String × CVal)) :
    ∀ (m : List (String × CVal)) (k : String), nodupKeysB entries = true →
      (entries.foldl (fun m2 kv => objUpsert m2 kv.1 kv.2) m).lookup k =
        match entries.lookup k with
        | some v => some v
        | none => m.lookup k := by
  induction entries with
  | nil => intro m k _; simp [List.lookup]
  | cons hd tl ih =>
    intro m k hnd
    obtain ⟨k1, v1⟩ := hd
    simp only [nodupKeysB, Bool.and_eq_true, Bool.not_eq_eq_eq_not,
      Bool.not_true] at hnd
    rw [List.foldl_cons]
    by_cases hk : k = k1
    · subst hk
      have htl : tl.lookup k = none := by
        have h := any_fst_beq_eq_lookup_isSome tl k
        rw [hnd.1] at h
        exact Option.not_isSome_iff_eq_none.mp (by simp [← h])
      rw [ih _ k hnd.2, htl, List.lookup]
      simp [lookup_objUpsert_self]
    · have hk2 : (k == k1) = false := by simp [hk]
      rw [ih _ k hnd.2, List.lookup, hk2]
      cases tl.lookup k with
      | some v => rfl
      | none => simp [lookup_objUpsert_ne _ _ hk]

/-- The constructor loads exactly the flattened built configuration. -/
theorem ofTree_eq (configTree : CVal) (nodeEnv : Option String)
    (root : String) (config : CVal)
    (hbuild : Configuration.buildConfig configTree nodeEnv root =
      .ok config) :
    Configuration.ofTree configTree nodeEnv root =
      .ok { store := (flattenTree config).foldl
              (fun m kv => objUpsert m kv.1 kv.2) [],
            immutable := false } := by
  rw [Configuration.ofTree, hbuild]
  rfl

/-- C6 (amended): the store built by the constructor is prefix-consistent —
descending from any composite entry agrees with the direct entry of the
longer dotted path — but a `set(key, value)` call updates only its own key:
every other entry, including ancestor prefixes of the written key, is left
unchanged rather than re-synchronised. -/
theorem constructor_consistent_set_only_own_key (configTree : CVal)
    (nodeEnv : Option String) (root : String) (config : CVal)
    (c : Configuration)
    (hbuild : Configuration.buildConfig configTree nodeEnv root = .ok config)
    (hof : Configuration.ofTree configTree nodeEnv root = .ok c)
    (hv : validB config = true) :
    (∀ (p q : List String) (v w : CVal), p ≠ [] →
      c.get (joinDot p) = some v → subtreeAt v q = some w →
      c.get (joinDot (p ++ q)) = some w) ∧
    (∀ (k : String) (v : CVal) (c2 : Configuration), c.set k v = .ok c2 →
      c2.get k = some v ∧ ∀ k2, k2 ≠ k → c2.get k2 = c.get k2) := by
  have hceq : c =
      { store := ((flattenTree config).foldl
          (fun m kv => objUpsert m kv.1 kv.2) []),
        immutable := false } := by
    rw [ofTree_eq configTree nodeEnv root config hbuild] at hof
    exact (Except.ok.injEq .. ▸ hof).symm
  have hget : ∀ k, c.get k = (flattenTree config).lookup k := by
    intro k
    rw [hceq]
    show ((flattenTree config).foldl _ []).lookup k = _
    rw [foldl_objUpsert_lookup _ [] k (nodupKeysB_flattenTree config)]
    cases (flattenTree config).lookup k <;> simp [List.lookup]
  constructor
  · intro p q v w hp hv2 hsubq
    rw [hget] at hv2
    obtain ⟨p2, hp2ne, hp2df, hp2j, hp2sub⟩ :=
      flatten_sound (sizeOf config) config le_rfl hv _ (lookup_mem hv2)
    by_cases hq : q = []
    · subst hq
      rw [subtreeAt] at hsubq
      cases hsubq
      rw [List.append_nil, hget]
      exact hv2
    · have hsub2 : subtreeAt config (p2 ++ q) = some w := by
        rw [subtreeAt_append p2 q config, hp2sub]
        exact hsubq
      have hjoin : joinDot (p ++ q) = joinDot (p2 ++ q) := by
        rw [joinDot_append p q hp hq, joinDot_append p2 q hp2ne hq, hp2j]
      rw [hget, hjoin]
      exact flatten_lookup config hv (p2 ++ q) (by simp [hp2ne]) hsub2
  · intro k v c2 hset
    have himm : c.immutable = false := by rw [hceq]
    have hc2 : c2 = { store := objUpsert c.store k v, immutable := false } := by
      rw [Configuration.set, himm] at hset
      simp at hset
      rw [← hset]
    constructor
    · rw [hc2]
      exact lookup_objUpsert_self _ _ _
    · intro k2 hne
      rw [hc2]
      exact lookup_objUpsert_ne _ _ hne

/-- The configuration built from the empty user tree with root `/r`. -/
def emptyBuilt : CVal := .obj [("main", .obj [
  ("resources", .arr [.vstr "controllers", .vstr "policies",
    .vstr "services", .vstr "models", .vstr "resolvers"]),
  ("maxListeners", .vnum 128),
  ("spools", .arr []),
  ("paths", .obj [
    ("root", .vstr "/r"),
    ("temp", .vstr "/r/.tmp"),
    ("sockets", .vstr "/r/.tmp/sockets"),
    ("logs", .vstr "/r/.tmp/log")]),
  ("freezeConfig", .vbool true),
  ("createPaths", .vbool true)])]

/-- C6 witness: on the constructor store of the empty user tree, descending
from the composite entry `main.paths` to `root` agrees with the direct
entry `main.paths.root`. -/
theorem constructor_consistent_witness :
    ({ store := (flattenTree emptyBuilt).foldl
         (fun m kv => objUpsert m kv.1 kv.2) [],
       immutable := false } : Configuration).get "main.paths.root" =
      some (.vstr "/r") := by
  have hbuild : Configuration.buildConfig (.obj []) none "/r" =
      .ok emptyBuilt := by
    simp +decide [Configuration.buildConfig, Configuration.initialResources,
      Configuration.envOverlay, Configuration.envTag,
      Configuration.pathResolve, lookupField, jsTruthy, lmerge, mergeFields,
      mergeElems, List.lookup, emptyBuilt, Bind.bind, Except.bind, pure,
      Except.pure]
  have h := constructor_consistent_set_only_own_key (.obj []) none "/r"
    emptyBuilt _ hbuild (ofTree_eq _ _ _ _ hbuild)
    (by simp +decide [emptyBuilt, validB, validFields, validElems,
      nodupKeysB, dotFreeB])
  have h1 := h.1 ["main", "paths"] ["root"]
    (.obj [("root", .vstr "/r"), ("temp", .vstr "/r/.tmp"),
      ("sockets", .vstr "/r/.tmp/sockets"), ("logs", .vstr "/r/.tmp/log")])
    (.vstr "/r") (by simp)
    (by
      rw [show joinDot ["main", "paths"] = "main.paths" from by decide]
      show (((flattenTree emptyBuilt).foldl
        (fun m kv => objUpsert m kv.1 kv.2) []).lookup "main.paths") = _
      simp +decide [emptyBuilt, flattenTree, flattenFields, flattenElems,
        addEntry, addFlat, objUpsert, isObjLike, natStr, natStrCore,
        digitChar, List.lookup])
    (by simp +decide [subtreeAt_obj_cons, subtreeAt_nil, List.lookup])
  rw [show joinDot (["main", "paths"] ++ ["root"]) = "main.paths.root"
    from by decide] at h1
  exact h1

/-! ### Claim C10: arrays are flattened like maps -/

/-- C10: in any valid tree, an array at path `p` produces both a flattened
entry for `p` holding the whole array and, for every valid index `i`, an
entry for the dotted path `p.i` holding the element, which the constructed
store returns on `get`. -/
theorem flatten_array_like_map (T : CVal) (hv : validB T = true)
    (p : List String) (hp : p ≠ []) (xs : List CVal)
    (hsub : subtreeAt T p = some (.arr xs)) (i : Nat) (v : CVal)
    (hget : xs.get? i = some v) :
    (flattenTree T).lookup (joinDot p) = some (.arr xs) ∧
    (flattenTree T).lookup (joinDot (p ++ [natStr i])) = some v ∧
    ({ store := (flattenTree T).foldl (fun m kv => objUpsert m kv.1 kv.2) [],
       immutable := false } : Configuration).get
      (joinDot (p ++ [natStr i])) = some v := by
  have h1 := flatten_lookup T hv p hp hsub
  have hsub2 : subtreeAt T (p ++ [natStr i]) = some v := by
    rw [subtreeAt_append p [natStr i] T, hsub]
    show subtreeAt (.arr xs) [natStr i] = some v
    rw [subtreeAt_arr_cons, arrIndex_natStr, hget]
    exact subtreeAt_nil v
  have h2 := flatten_lookup T hv (p ++ [natStr i]) (by simp) hsub2
  refine ⟨h1, h2, ?_⟩
  show (((flattenTree T).foldl (fun m kv => objUpsert m kv.1 kv.2)
    []).lookup (joinDot (p ++ [natStr i]))) = some v
  rw [foldl_objUpsert_lookup _ [] _ (nodupKeysB_flattenTree T), h2]

/-- C10 witness: for `{xs: [10, 20]}` the flattened store maps `xs` to the
whole array and `xs.1` to the second element, and `get` returns it. -/
theorem flatten_array_like_map_witness :
    (flattenTree (CVal.obj [("xs", .arr [.vnum 10, .vnum 20])])).lookup
        "xs.1" = some (CVal.vnum 20) ∧
    ({ store := (flattenTree (CVal.obj [("xs", .arr [.vnum 10, .vnum 20])])).foldl
         (fun m kv => objUpsert m kv.1 kv.2) [],
       immutable := false } : Configuration).get "xs.1" =
      some (CVal.vnum 20) := by
  have h := flatten_array_like_map
    (CVal.obj [("xs", .arr [.vnum 10, .vnum 20])])
    (by simp +decide [validB, validFields, validElems, nodupKeysB, dotFreeB])
    ["xs"] (by simp) [.vnum 10, .vnum 20]
    (by simp +decide [subtreeAt_obj_cons, subtreeAt_nil, List.lookup])
    1 (.vnum 20) rfl
  rw [show joinDot (["xs"] ++ [natStr 1]) = "xs.1" from by decide] at h
  exact ⟨h.2.1, h.2.2⟩

/-! ### Claim C7: layer precedence in buildConfig -/

theorem lookup_append_cval (l1 l2 : List (String × CVal)) (k : String) :
    (l1 ++ l2).lookup k =
      match l1.lookup k with
      | some v => some v
      | none => l2.lookup k := by
  induction l1 with
  | nil => simp [List.lookup]
  | cons hd tl ih =>
    obtain ⟨k1, v1⟩ := hd
    rw [List.cons_append, List.lookup, List.lookup]
    by_cases hk : k = k1
    · subst hk
      simp
    · have hk2 : (k == k1) = false := by simp [hk]
      rw [hk2]
      exact ih

theorem mergeFields_lookup (a : List (String × CVal)) :
    ∀ (b : List (String × CVal)) (k : String),
      (mergeFields a b).lookup k =
        match a.lookup k with
        | some av => some (match b.lookup k with
            | some bv => lmerge av bv
            | none => av)
        | none => none := by
  induction a with
  | nil => intro b k; rw [mergeFields]; simp [List.lookup]
  | cons hd tl ih =>
    intro b k
    obtain ⟨k1, av⟩ := hd
    rw [mergeFields, List.lookup, List.lookup]
    by_cases hk : k = k1
    · subst hk
      simp only [beq_self_eq_true]
      split
      · rename_i bv h
        simp [h]
      · rename_i h
        simp [h]
    · have hk2 : (k == k1) = false := by simp [hk]
      rw [hk2]
      exact ih b k

theorem filter_fresh_lookup (a : List (String × CVal)) :
    ∀ (b : List (String × CVal)) (k : String), a.lookup k = none →
      (b.filter (fun kv =>
        !(a.any (fun kv2 => kv2.1 == kv.1)))).lookup k = b.lookup k := by
  intro b
  induction b with
  | nil => intro k _; simp
  | cons hd tl ih =>
    intro k ha
    obtain ⟨k1, v1⟩ := hd
    by_cases hk : k = k1
    · subst hk
      have hany : (a.any fun kv2 => kv2.1 == k) = false := by
        rw [any_fst_beq_eq_lookup_isSome, ha]
        rfl
      rw [List.filter_cons]
      simp only [hany]
      simp [List.lookup]
    · have hk2 : (k == k1) = false := by simp [hk]
      rw [List.filter_cons]
      by_cases hp : (!(a.any fun kv2 => kv2.1 == k1)) = true
      · simp only [hp, if_true]
        rw [List.lookup, hk2, List.lookup, hk2]
        exact ih k ha
      · simp only [hp]
        simp only [Bool.false_eq_true, if_false]
        rw [List.lookup, hk2]
        exact ih k ha

theorem lmerge_obj_obj (a b : List (String × CVal)) :
    lmerge (.obj a) (.obj b) =
      .obj (mergeFields a b ++
        b.filter (fun kv => !(a.any (fun kv2 => kv2.1 == kv.1)))) := by
  rw [lmerge]

theorem lmerge_arr_arr (a b : List CVal) :
    lmerge (.arr a) (.arr b) = .arr (mergeElems a b) := by
  rw [lmerge]

theorem lmerge_scalar_src (x s : CVal) (h : isScalar s = true) :
    lmerge x s = s := by
  cases x <;> cases s <;> simp_all [isScalar, isObjLike] <;>
    (rw [lmerge] <;> simp)

theorem mergeElems_get? (a : List CVal) :
    ∀ (b : List CVal) (i : Nat),
      (mergeElems a b).get? i =
        match a.get? i, b.get? i with
        | some x, some y => some (lmerge x y)
        | some x, none => some x
        | none, some y => some y
        | none, none => none := by
  induction a with
  | nil =>
    intro b i
    cases b with
    | nil => rw [mergeElems]; simp
    | cons bh bt =>
      have he : mergeElems [] (bh :: bt) = bh :: bt := by simp [mergeElems]
      rw [he]
      cases i with
      | zero => simp
      | succ n => cases hx : bt[n]? <;> simp [List.get?_eq_getElem?, hx]
  | cons ah at2 ih =>
    intro b i
    cases b with
    | nil => rw [mergeElems]; cases hx : (ah :: at2).get? i <;> simp [hx]
    | cons bh bt =>
      have he : mergeElems (ah :: at2) (bh :: bt) =
          lmerge ah bh :: mergeElems at2 bt := by simp [mergeElems]
      rw [he]
      cases i with
      | zero => simp
      | succ j => simpa using ih bt j

/-- A scalar present in the merge source at any path survives into the
merged value, whatever the destination held there. -/
theorem subtree_lmerge_src (p : List String) :
    ∀ (x e : CVal) {v : CVal}, subtreeAt e p = some v → isScalar v = true →
      subtreeAt (lmerge x e) p = some v := by
  induction p with
  | nil =>
    intro x e v hsub hsc
    rw [subtreeAt] at hsub
    cases hsub
    rw [lmerge_scalar_src x e hsc]
    exact subtreeAt_nil e
  | cons k rest ih =>
    intro x e v hsub hsc
    cases e with
    | obj fse =>
      rw [subtreeAt_obj_cons] at hsub
      cases hlk : fse.lookup k with
      | none => rw [hlk] at hsub; exact absurd hsub (by simp)
      | some ev =>
        rw [hlk] at hsub
        cases x with
        | obj fsx =>
          rw [lmerge_obj_obj, subtreeAt_obj_cons, lookup_append_cval,
            mergeFields_lookup]
          cases hxk : fsx.lookup k with
          | some xv =>
            simp only [hxk, hlk]
            exact ih xv ev hsub hsc
          | none =>
            simp only [hxk]
            rw [filter_fresh_lookup fsx fse k hxk, hlk]
            exact hsub
        | arr xsx =>
          have : lmerge (.arr xsx) (.obj fse) = .obj fse := by simp [lmerge]
          rw [this, subtreeAt_obj_cons, hlk]
          exact hsub
        | vnull =>
          have : lmerge .vnull (.obj fse) = .obj fse := by simp [lmerge]
          rw [this, subtreeAt_obj_cons, hlk]
          exact hsub
        | vbool b2 =>
          have : lmerge (.vbool b2) (.obj fse) = .obj fse := by simp [lmerge]
          rw [this, subtreeAt_obj_cons, hlk]
          exact hsub
        | vnum n2 =>
          have : lmerge (.vnum n2) (.obj fse) = .obj fse := by simp [lmerge]
          rw [this, subtreeAt_obj_cons, hlk]
          exact hsub
        | vstr s2 =>
          have : lmerge (.vstr s2) (.obj fse) = .obj fse := by simp [lmerge]
          rw [this, subtreeAt_obj_cons, hlk]
          exact hsub
    | arr xse =>
      rw [subtreeAt_arr_cons] at hsub
      cases hlk : arrIndex xse k with
      | none => rw [hlk] at hsub; exact absurd hsub (by simp)
      | some ev =>
        rw [hlk] at hsub
        obtain ⟨i, hki, hget⟩ := arrIndex_some_inv hlk
        subst hki
        cases x with
        | arr xsx =>
          rw [lmerge_arr_arr, subtreeAt_arr_cons, arrIndex_natStr,
            mergeElems_get?]
          cases hxk : xsx.get? i with
          | some xv =>
            simp only [hxk, hget]
            exact ih xv ev hsub hsc
          | none =>
            simp only [hxk, hget]
            exact hsub
        | obj fsx =>
          have : lmerge (.obj fsx) (.arr xse) = .arr xse := by simp [lmerge]
          rw [this, subtreeAt_arr_cons, hlk]
          exact hsub
        | vnull =>
          have : lmerge .vnull (.arr xse) = .arr xse := by simp [lmerge]
          rw [this, subtreeAt_arr_cons, hlk]
          exact hsub
        | vbool b2 =>
          have : lmerge (.vbool b2) (.arr xse) = .arr xse := by simp [lmerge]
          rw [this, subtreeAt_arr_cons, hlk]
          exact hsub
        | vnum n2 =>
          have : lmerge (.vnum n2) (.arr xse) = .arr xse := by simp [lmerge]
          rw [this, subtreeAt_arr_cons, hlk]
          exact hsub
        | vstr s2 =>
          have : lmerge (.vstr s2) (.arr xse) = .arr xse := by simp [lmerge]
          rw [this, subtreeAt_arr_cons, hlk]
          exact hsub
    | vnull =>
      rw [subtreeAt_scalar_cons .vnull k rest (by rfl)] at hsub
      exact absurd hsub (by simp)
    | vbool b2 =>
      rw [subtreeAt_scalar_cons (.vbool b2) k rest (by rfl)] at hsub
      exact absurd hsub (by simp)
    | vnum n2 =>
      rw [subtreeAt_scalar_cons (.vnum n2) k rest (by rfl)] at hsub
      exact absurd hsub (by simp)
    | vstr s2 =>
      rw [subtreeAt_scalar_cons (.vstr s2) k rest (by rfl)] at hsub
      exact absurd hsub (by simp)

theorem subtree_lmerge_src_absent (a b : List (String × CVal)) (k : String)
    (rest : List String) (hb : b.lookup k = none) :
    subtreeAt (lmerge (.obj a) (.obj b)) (k :: rest) =
      subtreeAt (.obj a) (k :: rest) := by
  rw [lmerge_obj_obj, subtreeAt_obj_cons, subtreeAt_obj_cons,
    lookup_append_cval, mergeFields_lookup]
  cases hak : a.lookup k with
  | some av => simp only [hak, hb]
  | none =>
    simp only [hak]
    rw [filter_fresh_lookup a b k hak, hb]

theorem subtree_lmerge_dest_absent (a b : List (String × CVal)) (k : String)
    (rest : List String) (ha : a.lookup k = none) :
    subtreeAt (lmerge (.obj a) (.obj b)) (k :: rest) =
      subtreeAt (.obj b) (k :: rest) := by
  rw [lmerge_obj_obj, subtreeAt_obj_cons, subtreeAt_obj_cons,
    lookup_append_cval, mergeFields_lookup]
  simp only [ha]
  rw [filter_fresh_lookup a b k ha]

/-- C7 (amended): `buildConfig` deep-merges the defaults template, the user
tree, the environment overlay and the `env` tag in that order, the later
layer overriding the earlier at every scalar leaf path: a scalar leaf of
the environment overlay (whose top key is not the reserved `env` key)
always wins over both earlier layers; a scalar leaf of the user tree at
any path — the template-populated `main` subtree included, e.g. a user
`main.paths.root` — wins over the template whenever the two later layers
do not touch its top-level key; the final `{env: nodeEnv}` tag overrides
every earlier layer at the `env` key; and a list from a later layer does
not replace the earlier layer list wholesale — matching lists are merged
index-wise, the later layer winning positionally at scalar slots while
the earlier list keeps its extra tail elements. -/
theorem buildConfig_precedence (initialConfig : CVal)
    (nodeEnv : Option String) (root : String) (C : CVal)
    (ufs efs : List (String × CVal))
    (hic : initialConfig = .obj ufs)
    (hef : Configuration.envOverlay initialConfig nodeEnv = .obj efs)
    (hbuild : Configuration.buildConfig initialConfig nodeEnv root =
      .ok C) :
    (∀ (k : String) (rest : List String) (v : CVal), k ≠ "env" →
      subtreeAt (Configuration.envOverlay initialConfig nodeEnv)
        (k :: rest) = some v →
      isScalar v = true → subtreeAt C (k :: rest) = some v) ∧
    (∀ (k : String) (rest : List String) (v : CVal),
      k ≠ "env" → efs.lookup k = none →
      subtreeAt initialConfig (k :: rest) = some v → isScalar v = true →
      subtreeAt C (k :: rest) = some v) ∧
    (∀ s, nodeEnv = some s → subtreeAt C ["env"] = some (.vstr s)) ∧
    (∀ (xs ys : List CVal),
      lmerge (.arr xs) (.arr ys) = .arr (mergeElems xs ys) ∧
      (∀ i, ys.length ≤ i → (mergeElems xs ys).get? i = xs.get? i) ∧
      (∀ i y, ys.get? i = some y → isScalar y = true →
        (mergeElems xs ys).get? i = some y)) := by
  cases hres : Configuration.initialResources initialConfig with
  | error e =>
    rw [Configuration.buildConfig] at hbuild
    rw [hres] at hbuild
    exact absurd hbuild (by simp [Bind.bind, Except.bind])
  | ok r =>
    rw [Configuration.buildConfig] at hbuild
    rw [hres] at hbuild
    simp only [Bind.bind, Except.bind, pure, Except.pure,
      Except.ok.injEq] at hbuild
    obtain ⟨xfs, hX⟩ : ∃ xfs,
        lmerge (.obj [("main", .obj [
          ("resources", r),
          ("maxListeners", .vnum 128),
          ("spools", .arr []),
          ("paths", .obj [
            ("root", .vstr root),
            ("temp", .vstr (Configuration.pathResolve root ".tmp")),
            ("sockets", .vstr (Configuration.pathResolve
              (Configuration.pathResolve root ".tmp") "sockets")),
            ("logs", .vstr (Configuration.pathResolve
              (Configuration.pathResolve root ".tmp") "log"))]),
          ("freezeConfig", .vbool true),
          ("createPaths", .vbool true)])]) initialConfig = .obj xfs := by
      rw [hic, lmerge_obj_obj]
      exact ⟨_, rfl⟩
    obtain ⟨yfs, hY⟩ : ∃ yfs,
        lmerge (.obj xfs) (Configuration.envOverlay initialConfig nodeEnv) =
          .obj yfs := by
      rw [hef, lmerge_obj_obj]
      exact ⟨_, rfl⟩
    have hC : C = lmerge (.obj yfs) (Configuration.envTag nodeEnv) := by
      rw [← hbuild, hX, hY]
    have henvTag : ∀ (k : String) (rest : List String), k ≠ "env" →
        subtreeAt C (k :: rest) = subtreeAt (.obj yfs) (k :: rest) := by
      intro k rest hk
      rw [hC]
      cases nodeEnv with
      | none => exact subtree_lmerge_src_absent yfs [] k rest rfl
      | some s =>
        refine subtree_lmerge_src_absent yfs [("env", .vstr s)] k rest ?_
        have hk2 : (k == "env") = false := by simp [hk]
        simp [List.lookup, hk2]
    refine ⟨?_, ?_, ?_, ?_⟩
    · intro k rest v hk hsubenv hsc
      rw [henvTag k rest hk, ← hY]
      exact subtree_lmerge_src (k :: rest) (.obj xfs) _ hsubenv hsc
    · intro k rest v hk hke hsub hsc
      rw [henvTag k rest hk, ← hY, hef]
      rw [subtree_lmerge_src_absent xfs efs k rest hke, ← hX]
      exact subtree_lmerge_src (k :: rest) _ initialConfig hsub hsc
    · intro s hs
      rw [hC, hs]
      have htag : subtreeAt (Configuration.envTag (some s)) ["env"] =
          some (CVal.vstr s) := by
        show subtreeAt (.obj [("env", CVal.vstr s)]) ["env"] =
          some (.vstr s)
        rw [subtreeAt_obj_cons]
        have hlk : List.lookup "env" [("env", CVal.vstr s)] =
            some (CVal.vstr s) := by simp [List.lookup]
        rw [hlk]
        exact subtreeAt_nil _
      exact subtree_lmerge_src ["env"] (.obj yfs) _ htag (by rfl)
    · intro xs ys
      refine ⟨lmerge_arr_arr xs ys, ?_, ?_⟩
      · intro i hle
        rw [mergeElems_get?]
        have hyi : ys[i]? = none := List.getElem?_eq_none hle
        cases hxi : xs[i]? <;>
          simp [List.get?_eq_getElem?, hxi, hyi]
      · intro i y hy hsc
        rw [mergeElems_get?]
        rw [List.get?_eq_getElem?] at hy
        cases hxi : xs[i]? with
        | some x =>
          simp only [List.get?_eq_getElem?, hxi, hy]
          rw [lmerge_scalar_src x y hsc]
        | none => simp [List.get?_eq_getElem?, hxi, hy]

/-- The user tree of the C7 witness: it overrides the template's
`main.paths.root`, sets the list `a = [1, 2]`, and declares a `test`
environment overlay `a = [9]`. -/
def c7user : CVal :=
  .obj [("main", .obj [("paths", .obj [("root", .vstr "/u")])]),
    ("a", .arr [.vnum 1, .vnum 2]),
    ("env", .obj [("test", .obj [("a", .arr [.vnum 9])])])]

/-- What `buildConfig` returns for `c7user` with `NODE_ENV = test` under
root `/r`. -/
def c7built : CVal :=
  .obj [("main", .obj [
      ("resources", .arr [.vstr "controllers", .vstr "policies",
        .vstr "services", .vstr "models", .vstr "resolvers"]),
      ("maxListeners", .vnum 128),
      ("spools", .arr []),
      ("paths", .obj [
        ("root", .vstr "/u"),
        ("temp", .vstr "/r/.tmp"),
        ("sockets", .vstr "/r/.tmp/sockets"),
        ("logs", .vstr "/r/.tmp/log")]),
      ("freezeConfig", .vbool true),
      ("createPaths", .vbool true)]),
    ("a", .arr [.vnum 9, .vnum 2]),
    ("env", .vstr "test")]

/-- C7 witness: on `c7user` built with `NODE_ENV = test` and root `/r`,
the user's `main.paths.root = "/u"` wins over the template's root-derived
path, the final `env` tag wins at `env`, and the merged list keeps the
earlier tail element at index 1 while taking the later scalar at
index 0. -/
theorem buildConfig_precedence_witness :
    subtreeAt c7built ["main", "paths", "root"] = some (CVal.vstr "/u") ∧
    subtreeAt c7built ["env"] = some (CVal.vstr "test") ∧
    (mergeElems [CVal.vnum 1, CVal.vnum 2] [CVal.vnum 9]).get? 1 =
      some (CVal.vnum 2) ∧
    (mergeElems [CVal.vnum 1, CVal.vnum 2] [CVal.vnum 9]).get? 0 =
      some (CVal.vnum 9) := by
  obtain ⟨h1, h2, h3, h4⟩ := buildConfig_precedence c7user (some "test")
    "/r" c7built
    [("main", .obj [("paths", .obj [("root", .vstr "/u")])]),
     ("a", .arr [.vnum 1, .vnum 2]),
     ("env", .obj [("test", .obj [("a", .arr [.vnum 9])])])]
    [("a", .arr [.vnum 9])]
    rfl
    (by simp +decide [c7user, Configuration.envOverlay, lookupField,
      jsTruthy, List.lookup])
    (by simp +decide [c7user, c7built, Configuration.buildConfig,
      Configuration.initialResources, Configuration.envOverlay,
      Configuration.envTag, Configuration.pathResolve, lookupField,
      jsTruthy, lmerge, mergeFields, mergeElems, List.lookup, Bind.bind,
      Except.bind, pure, Except.pure])
  obtain ⟨heq, htail, hsc⟩ := h4 [CVal.vnum 1, CVal.vnum 2] [CVal.vnum 9]
  refine ⟨?_, h3 "test" rfl, htail 1 (by norm_num),
    hsc 0 (CVal.vnum 9) rfl rfl⟩
  refine h2 "main" ["paths", "root"] (CVal.vstr "/u") (by decide)
    (by simp +decide [List.lookup]) ?_ rfl
  simp +decide [c7user, subtreeAt_obj_cons, subtreeAt_nil, List.lookup]

/-! ### Claims C1 and C9: the PhaseWaiter combinator -/

/-- All requirements of a list are satisfied by a trace. -/
def allSat {α : Type} (reqs : List SignalReq) (tr : List (String × α)) :
    Bool :=
  reqs.all (fun r => satisfiedBy r tr)

theorem foldl_stepWait_reqs {α : Type} (tr : List (String × α)) :
    ∀ (w : PendingWait α), (tr.foldl stepWait w).reqs = w.reqs := by
  induction tr with
  | nil => intro w; rfl
  | cons e tl ih =>
    intro w
    rw [List.foldl_cons, ih]
    rfl

theorem firstPayload_isSome {α : Type} (r : SignalReq)
    (tr : List (String × α)) :
    (firstPayload r tr).isSome = satisfiedBy r tr := by
  induction tr with
  | nil => rfl
  | cons e tl ih =>
    by_cases hm : e.1 ∈ r.names
    · have hp : (fun e2 : String × α => r.names.contains e2.1) e = true := by
        simpa using hm
      rw [firstPayload, satisfiedBy, List.any_cons,
        @List.find?_cons_of_pos _ (fun e2 => r.names.contains e2.1) e tl hp]
      simp [hm]
    · have hp : ¬ (fun e2 : String × α => r.names.contains e2.1) e = true := by
        simpa using hm
      rw [firstPayload, satisfiedBy, List.any_cons,
        @List.find?_cons_of_neg _ (fun e2 => r.names.contains e2.1) e tl hp]
      have hc : r.names.contains e.1 = false := by simpa using hm
      rw [hc, Bool.false_or]
      exact ih

theorem firstPayload_append_left {α : Type} (r : SignalReq)
    (tr ext : List (String × α)) {a : α}
    (h : firstPayload r tr = some a) :
    firstPayload r (tr ++ ext) = some a := by
  rw [firstPayload, List.find?_append]
  rw [firstPayload] at h
  cases hf : tr.find? (fun e => r.names.contains e.1) with
  | none => rw [hf] at h; simp at h
  | some pr =>
    rw [hf] at h
    simpa using h

theorem satisfiedBy_append_left {α : Type} (r : SignalReq)
    (tr ext : List (String × α)) (h : satisfiedBy r tr = true) :
    satisfiedBy r (tr ++ ext) = true := by
  rw [satisfiedBy, List.any_append]
  rw [satisfiedBy] at h
  rw [h]
  rfl

theorem runWait_unfold {α : Type} (w : PendingWait α)
    (es : List (String × α)) (t : Nat) :
    runWait w es t =
      if resolvedWait w then some (t, w.slots.reduceOption)
      else
        match es with
        | [] => none
        | e :: rest => runWait (stepWait w e) rest (t + 1) := by
  cases es <;> rfl

/-- The slots of a waiter caught up on a trace hold exactly each
requirement's first-arriving payload. -/
theorem slots_foldl {α : Type} (reqs : List SignalReq)
    (tr : List (String × α)) :
    (tr.foldl stepWait (initWait reqs)).slots =
      reqs.map (fun r => firstPayload r tr) := by
  induction tr using List.reverseRecOn with
  | nil =>
    rw [List.foldl_nil, initWait]
    apply List.map_congr_left
    intro r _
    rfl
  | append_singleton pre e ih =>
    rw [List.foldl_append, List.foldl_cons, List.foldl_nil, stepWait]
    rw [foldl_stepWait_reqs pre (initWait reqs)]
    rw [show (initWait (α := α) reqs).reqs = reqs from rfl, ih]
    have hzip : reqs.zip (reqs.map (fun r => firstPayload r pre)) =
        reqs.map (fun r => (r, firstPayload r pre)) := by
      have h := List.zip_map' id (fun r => firstPayload r pre) reqs
      rwa [List.map_id] at h
    rw [hzip, List.map_map]
    apply List.map_congr_left
    intro r _
    show (match firstPayload r pre with
      | some a => some a
      | none => if r.names.contains e.1 then some e.2 else none) =
      firstPayload r (pre ++ [e])
    rw [firstPayload, firstPayload, List.find?_append]
    cases hf : pre.find? (fun e2 => r.names.contains e2.1) with
    | some pr => simp
    | none =>
      by_cases hm : e.1 ∈ r.names
      · have hp : (fun e2 : String × α => r.names.contains e2.1) e = true := by
          simpa using hm
        rw [@List.find?_cons_of_pos _ (fun e2 => r.names.contains e2.1) e [] hp]
        simp [hm]
      · have hp : ¬ (fun e2 : String × α => r.names.contains e2.1) e = true := by
          simpa using hm
        rw [@List.find?_cons_of_neg _ (fun e2 => r.names.contains e2.1) e [] hp]
        have hc : r.names.contains e.1 = false := by simpa using hm
        simp [hc, hm]

theorem map_firstPayload_all {α : Type} (reqs : List SignalReq)
    (tr : List (String × α)) :
    (reqs.map (fun r => firstPayload r tr)).all Option.isSome =
      allSat reqs tr := by
  induction reqs with
  | nil => rfl
  | cons r tl ih =>
    rw [List.map_cons, List.all_cons, firstPayload_isSome, ih]
    rfl

theorem resolved_foldl {α : Type} (reqs : List SignalReq)
    (tr : List (String × α)) :
    resolvedWait (tr.foldl stepWait (initWait reqs)) = allSat reqs tr := by
  rw [resolvedWait, slots_foldl, map_firstPayload_all]

theorem reduceOption_get? {α : Type} :
    ∀ (l : List (Option α)), l.all Option.isSome = true →
      ∀ i, l.reduceOption.get? i = (l.get? i).join := by
  intro l
  induction l with
  | nil => intro _ i; simp
  | cons hd tl ih =>
    intro h i
    rw [List.all_cons] at h
    simp only [Bool.and_eq_true] at h
    cases hd with
    | none => simp at h
    | some a =>
      rw [List.reduceOption_cons_of_some]
      cases i with
      | zero => simp
      | succ j => simpa using ih h.2 j

theorem reduceOption_length_all {α : Type} :
    ∀ (l : List (Option α)), l.all Option.isSome = true →
      l.reduceOption.length = l.length := by
  intro l
  induction l with
  | nil => intro _; rfl
  | cons hd tl ih =>
    intro h
    rw [List.all_cons] at h
    simp only [Bool.and_eq_true] at h
    cases hd with
    | none => simp at h
    | some a =>
      rw [List.reduceOption_cons_of_some]
      simp [ih h.2]

/-- A waiter that is already resolved resolves immediately, with its
collected slots. -/
theorem runWait_resolved {α : Type} (w : PendingWait α)
    (future : List (String × α)) (t0 : Nat) (h : resolvedWait w = true) :
    runWait w future t0 = some (t0, w.slots.reduceOption) := by
  rw [runWait_unfold, if_pos h]

/-- Soundness of the scan: a resolution at time `n` happens exactly when
all requirements are first satisfied, and collects first payloads. -/
theorem runWait_sound {α : Type} (reqs : List SignalReq) :
    ∀ (future hist : List (String × α)) (t0 n : Nat) (res : List α),
      runWait (hist.foldl stepWait (initWait reqs)) future t0 =
        some (n, res) →
      t0 ≤ n ∧ n - t0 ≤ future.length ∧
      allSat reqs (hist ++ future.take (n - t0)) = true ∧
      (∀ m, m < n - t0 → allSat reqs (hist ++ future.take m) = false) ∧
      res = (reqs.map (fun r =>
        firstPayload r (hist ++ future.take (n - t0)))).reduceOption := by
  intro future
  induction future with
  | nil =>
    intro hist t0 n res h
    rw [runWait_unfold] at h
    by_cases hres : resolvedWait (hist.foldl stepWait (initWait reqs)) = true
    · rw [if_pos hres] at h
      simp only [Option.some.injEq, Prod.mk.injEq] at h
      obtain ⟨h1, h2⟩ := h
      subst h1
      refine ⟨le_refl t0, by simp, ?_, ?_, ?_⟩
      · rw [Nat.sub_self, List.take_zero, List.append_nil]
        rw [← resolved_foldl]
        exact hres
      · intro m hm
        omega
      · rw [Nat.sub_self, List.take_zero, List.append_nil]
        rw [← h2, slots_foldl]
    · rw [if_neg hres] at h
      exact absurd h (by simp)
  | cons e rest ih =>
    intro hist t0 n res h
    rw [runWait_unfold] at h
    by_cases hres : resolvedWait (hist.foldl stepWait (initWait reqs)) = true
    · rw [if_pos hres] at h
      simp only [Option.some.injEq, Prod.mk.injEq] at h
      obtain ⟨h1, h2⟩ := h
      subst h1
      refine ⟨le_refl t0, by simp, ?_, ?_, ?_⟩
      · rw [Nat.sub_self, List.take_zero, List.append_nil]
        rw [← resolved_foldl]
        exact hres
      · intro m hm
        omega
      · rw [Nat.sub_self, List.take_zero, List.append_nil]
        rw [← h2, slots_foldl]
    · rw [if_neg hres] at h
      have hw : stepWait (hist.foldl stepWait (initWait reqs)) e =
          (hist ++ [e]).foldl stepWait (initWait reqs) := by
        rw [List.foldl_append, List.foldl_cons, List.foldl_nil]
      rw [show (match e :: rest with
          | [] => (none : Option (Nat × List α))
          | e2 :: rest2 => runWait
              (stepWait (hist.foldl stepWait (initWait reqs)) e2) rest2
              (t0 + 1)) = runWait
              (stepWait (hist.foldl stepWait (initWait reqs)) e) rest
              (t0 + 1) from rfl, hw] at h
      obtain ⟨ht, hlen, hsat, hmin, hres2⟩ := ih (hist ++ [e]) (t0 + 1) n res h
      have hn : n - t0 = (n - (t0 + 1)) + 1 := by omega
      have happ : ∀ (j : Nat), (hist ++ [e]) ++ rest.take j =
          hist ++ (e :: rest).take (j + 1) := by
        intro j
        rw [List.take_succ_cons]
        simp
      refine ⟨by omega, by simp; omega, ?_, ?_, ?_⟩
      · rw [hn, ← happ (n - (t0 + 1))]
        exact hsat
      · intro m hm
        cases m with
        | zero =>
          rw [List.take_zero, List.append_nil, ← resolved_foldl]
          simpa using hres
        | succ j =>
          rw [← happ j]
          exact hmin j (by omega)
      · rw [hn, ← happ (n - (t0 + 1))]
        exact hres2

/-- The scan resolves whenever the whole trace satisfies everything. -/
theorem runWait_exists {α : Type} (reqs : List SignalReq) :
    ∀ (future hist : List (String × α)) (t0 : Nat),
      allSat reqs (hist ++ future) = true →
      ∃ n res, runWait (hist.foldl stepWait (initWait reqs)) future t0 =
        some (n, res) := by
  intro future
  induction future with
  | nil =>
    intro hist t0 h
    rw [List.append_nil] at h
    exact ⟨t0, _, runWait_resolved _ _ _ (by rw [resolved_foldl]; exact h)⟩
  | cons e rest ih =>
    intro hist t0 h
    by_cases hres : resolvedWait (hist.foldl stepWait (initWait reqs)) = true
    · exact ⟨t0, _, runWait_resolved _ _ _ hres⟩
    · have hw : stepWait (hist.foldl stepWait (initWait reqs)) e =
          (hist ++ [e]).foldl stepWait (initWait reqs) := by
        rw [List.foldl_append, List.foldl_cons, List.foldl_nil]
      have h2 : allSat reqs ((hist ++ [e]) ++ rest) = true := by
        rw [show (hist ++ [e]) ++ rest = hist ++ e :: rest from by simp]
        exact h
      obtain ⟨n, res, hr⟩ := ih (hist ++ [e]) (t0 + 1) h2
      refine ⟨n, res, ?_⟩
      rw [runWait_unfold, if_neg hres]
      show runWait (stepWait (hist.foldl stepWait (initWait reqs)) e) rest
        (t0 + 1) = some (n, res)
      rw [hw]
      exact hr

/-- A resolution never changes when the trace is extended: the deferred
result fires exactly once. -/
theorem runWait_stable {α : Type} :
    ∀ (future : List (String × α)) (w : PendingWait α) (t0 : Nat)
      (x : Nat × List α) (ext : List (String × α)),
      runWait w future t0 = some x → runWait w (future ++ ext) t0 = some x := by
  intro future
  induction future with
  | nil =>
    intro w t0 x ext h
    rw [runWait_unfold] at h
    by_cases hres : resolvedWait w = true
    · rw [if_pos hres] at h
      rw [List.nil_append, runWait_unfold]
      cases ext with
      | nil => rw [if_pos hres]; exact h
      | cons e2 tl2 => rw [if_pos hres]; exact h
    · rw [if_neg hres] at h
      exact absurd h (by simp)
  | cons e rest ih =>
    intro w t0 x ext h
    rw [runWait_unfold] at h
    by_cases hres : resolvedWait w = true
    · rw [if_pos hres] at h
      rw [List.cons_append, runWait_unfold, if_pos hres]
      exact h
    · rw [if_neg hres] at h
      rw [List.cons_append, runWait_unfold, if_neg hres]
      show runWait (stepWait w e) (rest ++ ext) (t0 + 1) = some x
      exact ih _ _ _ _ h

theorem allSat_map_isSome {α : Type} (reqs : List SignalReq)
    (tr : List (String × α)) (h : allSat reqs tr = true) :
    (reqs.map (fun r => firstPayload r tr)).all Option.isSome = true := by
  rw [map_firstPayload_all]
  exact h

/-- C1: proved over the spec-modelled waiter combinator `after` (the
implementation itself is not among the sources; only its test suite is).
A resolution `(n, res)` of `after reqs hist future` — the call made after
the emissions `hist` already fired, with `future` still to come —
(a) happens at the earliest point at which every requirement element has
been satisfied at least once (emissions in `hist` count); (b) `res` is an
ordered array with one slot per requirement element whose i-th slot holds
the payload of whichever signal in element i fired first; (c) if `hist`
alone already satisfies every element, it resolves immediately, consuming
no future emission; (d) the resolution is stable under extending the
emission trace, so it fires exactly once; (e) for the requirement list
`[[A, B], C]` it resolves exactly when C has fired and at least one of A
or B has fired. -/
theorem after_spec {α : Type} (reqs : List SignalReq)
    (hist future : List (String × α)) :
    (∀ n res, after reqs hist future = some (n, res) →
      n ≤ future.length ∧
      allSat reqs (hist ++ future.take n) = true ∧
      (∀ m, m < n → allSat reqs (hist ++ future.take m) = false) ∧
      res.length = reqs.length ∧
      (∀ i r, reqs.get? i = some r →
        res.get? i = firstPayload r (hist ++ future.take n))) ∧
    (allSat reqs (hist ++ future) = true →
      ∃ n res, after reqs hist future = some (n, res)) ∧
    (allSat reqs hist = true → ∃ res, after reqs hist future = some (0, res)) ∧
    (∀ x ext, after reqs hist future = some x →
      after reqs hist (future ++ ext) = some x) ∧
    (∀ A B Cn, (∃ n res,
        after [SignalReq.anyOf [A, B], SignalReq.single Cn] hist future =
          some (n, res)) ↔
      (satisfiedBy (SignalReq.anyOf [A, B]) (hist ++ future) = true ∧
       satisfiedBy (SignalReq.single Cn) (hist ++ future) = true)) := by
  refine ⟨?_, ?_, ?_, ?_, ?_⟩
  · intro n res h
    rw [after] at h
    obtain ⟨_, hlen, hsat, hmin, hres⟩ := runWait_sound reqs future hist 0 n res h
    rw [Nat.sub_zero] at hlen hsat hres
    refine ⟨hlen, hsat, ?_, ?_, ?_⟩
    · intro m hm
      have := hmin m (by omega)
      exact this
    · rw [hres, reduceOption_length_all _ (allSat_map_isSome _ _ hsat),
        List.length_map]
    · intro i r hi
      rw [hres, reduceOption_get? _ (allSat_map_isSome _ _ hsat) i,
        List.get?_map, hi]
      rfl
  · intro h
    exact runWait_exists reqs future hist 0 h
  · intro h
    refine ⟨(hist.foldl stepWait (initWait reqs)).slots.reduceOption, ?_⟩
    rw [after]
    refine runWait_resolved _ _ _ ?_
    rw [resolved_foldl]
    exact h
  · intro x ext h
    rw [after] at h ⊢
    exact runWait_stable _ _ _ _ _ h
  · intro A B Cn
    constructor
    · rintro ⟨n, res, h⟩
      rw [after] at h
      obtain ⟨_, _, hsat, _, _⟩ := runWait_sound _ future hist 0 n res h
      rw [Nat.sub_zero] at hsat
      rw [allSat] at hsat
      simp only [List.all_cons, List.all_nil, Bool.and_eq_true,
        Bool.and_true] at hsat
      obtain ⟨h1, h2⟩ := hsat
      have hd : hist ++ future = (hist ++ future.take n) ++ future.drop n := by
        rw [List.append_assoc, List.take_append_drop]
      rw [hd]
      exact ⟨satisfiedBy_append_left _ _ _ h1, satisfiedBy_append_left _ _ _ h2⟩
    · rintro ⟨h1, h2⟩
      have hall : allSat [SignalReq.anyOf [A, B], SignalReq.single Cn]
          (hist ++ future) = true := by
        rw [allSat]
        simp only [List.all_cons, List.all_nil, Bool.and_eq_true, Bool.and_true]
        exact ⟨h1, h2⟩
      exact runWait_exists _ future hist 0 hall

/-- C1 witness: for requirements `[[a, b], c]` with `b` fired (payload 5)
before the call and `c` (payload 7) fired after it, `after` resolves after
consuming one future emission with the slot array `[5, 7]`; the consumed
prefix satisfies every element, and slot 0 holds the group's
first-arriving payload. -/
theorem after_spec_witness :
    after [SignalReq.anyOf ["a", "b"], SignalReq.single "c"]
      [("b", (5 : Nat))] [("c", 7)] = some (1, [5, 7]) ∧
    allSat [SignalReq.anyOf ["a", "b"], SignalReq.single "c"]
      ([("b", (5 : Nat))] ++ [("c", 7)].take 1) = true ∧
    [5, 7].get? 0 = firstPayload (SignalReq.anyOf ["a", "b"])
      ([("b", (5 : Nat))] ++ [("c", 7)].take 1) := by
  have h := after_spec [SignalReq.anyOf ["a", "b"], SignalReq.single "c"]
    [("b", (5 : Nat))] [("c", 7)]
  have hres : after [SignalReq.anyOf ["a", "b"], SignalReq.single "c"]
      [("b", (5 : Nat))] [("c", 7)] = some (1, [5, 7]) := by rfl
  have h1 := h.1 1 [5, 7] hres
  exact ⟨hres, h1.2.1, h1.2.2.2.2 0 (SignalReq.anyOf ["a", "b"]) (by rfl)⟩

/-- C9 counterexample: on the scenario of the `#onceAny` test
(`src/unnamed/part_001`), `emit('test1', 1)` after the call, the resolved
value observed by the test is the one-element argument array `[1]` — the
test asserts `result[0] == 1`, which holds of the array — while the bare
payload `1` is a scalar with no entry at index 0 and differs from the
resolved value; a resolution with "the payload itself, not wrapped in a
positional array" (the reading formalised by `onceAny`) would instead
produce the bare payload, so the claim contradicts the cited test. -/
theorem onceAny_unwrapped_counterexample :
    onceAnyObserved "test1" [] [("test1", CVal.vnum 1)] =
      some (1, CVal.arr [CVal.vnum 1]) ∧
    [CVal.vnum 1].get? 0 = some (CVal.vnum 1) ∧
    isObjLike (CVal.vnum 1) = false ∧
    onceAny "test1" [] [("test1", CVal.vnum 1)] = some (1, CVal.vnum 1) ∧
    CVal.arr [CVal.vnum 1] ≠ CVal.vnum 1 := by
  refine ⟨by rfl, by rfl, by rfl, by rfl, ?_⟩
  intro h
  exact CVal.noConfusion h

/-- C9 (amended): over the waiter modelled from the spec and the
`#onceAny` test, `onceAny(A)` resolves exactly once with the argument
array of A's first emission — so its entry 0 is A's first-emitted
payload — it resolves as soon as A has fired (emissions before the call
count), at the earliest such point, and the resolution never changes as
the emission trace is extended: it does not re-fire on subsequent A
emissions. -/
theorem onceAny_spec (name : String) (hist future : List (String × CVal)) :
    (∀ n v, onceAnyObserved name hist future = some (n, v) →
      n ≤ future.length ∧
      satisfiedBy (SignalReq.single name) (hist ++ future.take n) = true ∧
      (∀ m, m < n →
        satisfiedBy (SignalReq.single name) (hist ++ future.take m) = false) ∧
      (∃ a, firstPayload (SignalReq.single name) (hist ++ future.take n) =
        some a ∧ v = CVal.arr [a])) ∧
    (satisfiedBy (SignalReq.single name) (hist ++ future) = true →
      ∃ n v, onceAnyObserved name hist future = some (n, v)) ∧
    (∀ x ext, onceAnyObserved name hist future = some x →
      onceAnyObserved name hist (future ++ ext) = some x) := by
  refine ⟨?_, ?_, ?_⟩
  · intro n v h
    rw [onceAnyObserved] at h
    cases hafter : after [SignalReq.single name] hist future with
    | none =>
      rw [hafter] at h
      simp at h
    | some p =>
      rw [hafter] at h
      simp only [Option.some_bind] at h
      cases hget : p.2.get? 0 with
      | none =>
        rw [hget] at h
        simp at h
      | some a =>
        rw [hget] at h
        simp only [Option.map_some', Option.some.injEq, Prod.mk.injEq] at h
        obtain ⟨hn, hv⟩ := h
        rw [after] at hafter
        obtain ⟨_, hlen, hsat, hmin, hres⟩ :=
          runWait_sound [SignalReq.single name] future hist 0 p.1 p.2
            (by rw [hafter])
        rw [Nat.sub_zero] at hlen hsat hres
        have hsat1 : satisfiedBy (SignalReq.single name)
            (hist ++ future.take p.1) = true := by
          rw [allSat] at hsat
          simpa using hsat
        have hfp : (firstPayload (SignalReq.single name)
            (hist ++ future.take p.1)).isSome = true := by
          rw [firstPayload_isSome]
          exact hsat1
        obtain ⟨b, hb⟩ := Option.isSome_iff_exists.mp hfp
        have hp2 : p.2 = [b] := by
          rw [hres]
          simp only [List.map_cons, List.map_nil]
          rw [hb]
          simp [List.reduceOption]
        have hab : a = b := by
          rw [hp2] at hget
          have := hget
          simp at this
          exact this.symm
        subst hn
        refine ⟨hlen, hsat1, ?_, ⟨b, hb, ?_⟩⟩
        · intro m hm
          have := hmin m (by omega)
          rw [allSat] at this
          simpa using this
        · rw [← hv, hab]
  · intro h
    have hall : allSat [SignalReq.single name] (hist ++ future) = true := by
      rw [allSat]
      simpa using h
    obtain ⟨n, l, hrw⟩ := runWait_exists [SignalReq.single name] future hist 0 hall
    obtain ⟨_, _, hsat, _, hres⟩ :=
      runWait_sound [SignalReq.single name] future hist 0 n l hrw
    rw [Nat.sub_zero] at hsat hres
    have hsat1 : satisfiedBy (SignalReq.single name)
        (hist ++ future.take n) = true := by
      rw [allSat] at hsat
      simpa using hsat
    have hfp : (firstPayload (SignalReq.single name)
        (hist ++ future.take n)).isSome = true := by
      rw [firstPayload_isSome]
      exact hsat1
    obtain ⟨b, hb⟩ := Option.isSome_iff_exists.mp hfp
    have hl : l = [b] := by
      rw [hres]
      simp only [List.map_cons, List.map_nil]
      rw [hb]
      simp [List.reduceOption]
    refine ⟨n, CVal.arr [b], ?_⟩
    rw [onceAnyObserved]
    have hafter : after [SignalReq.single name] hist future = some (n, l) := hrw
    rw [hafter, hl]
    rfl
  · intro x ext h
    rw [onceAnyObserved] at h ⊢
    cases hafter : after [SignalReq.single name] hist future with
    | none =>
      rw [hafter] at h
      simp at h
    | some p =>
      rw [hafter] at h
      have hst : after [SignalReq.single name] hist (future ++ ext) = some p := by
        rw [after] at hafter ⊢
        exact runWait_stable _ _ _ _ _ hafter
      rw [hst]
      exact h

/-- C9 witness: with `('t', 3)` emitted after the call, `onceAny` resolves
after one emission with the argument array `[3]`, and the consumed prefix
carries the signal. -/
theorem onceAny_spec_witness :
    onceAnyObserved "t" [] [("t", CVal.vnum 3)] =
      some (1, CVal.arr [CVal.vnum 3]) ∧
    satisfiedBy (SignalReq.single "t")
      ([] ++ [("t", CVal.vnum 3)].take 1) = true := by
  have h := onceAny_spec "t" [] [("t", CVal.vnum 3)]
  have hres : onceAnyObserved "t" [] [("t", CVal.vnum 3)] =
      some (1, CVal.arr [CVal.vnum 3]) := by rfl
  exact ⟨hres, (h.1 1 (CVal.arr [CVal.vnum 3]) hres).2.1⟩

end Fabrix
